import Mathlib

/-
  Verification of the planar_geometry kernel (relational-geometry algorithms).

  The Python sources are shallowly embedded over the real numbers:
  float arithmetic becomes exact real arithmetic, math.sqrt becomes
  Real.sqrt, functions that can raise become Except-valued functions,
  and functions that can return None become Option-valued functions.
  Field and function names follow the source files
  (planar_geometry/point/point2d.py, curve/vector2d.py, curve/line.py,
  curve/line_segment.py, geometry_utils.py, utils/intersection_ops.py,
  utils/projection_ops.py, utils/query_ops.py, surface/polygon.py).
-/

open scoped Classical

noncomputable section

namespace PlanarGeometry

/-- Point2D from planar_geometry/point/point2d.py: a pair of real coordinates. -/
structure Point2D where
  x : ℝ
  y : ℝ
deriving DecidableEq

/-- Vector2D from planar_geometry/curve/vector2d.py. -/
structure Vector2D where
  x : ℝ
  y : ℝ
deriving DecidableEq

/-- Point2D.distance_to: Euclidean distance, sqrt(dx*dx + dy*dy). -/
def Point2D.distance_to (p other : Point2D) : ℝ :=
  Real.sqrt ((p.x - other.x) * (p.x - other.x) + (p.y - other.y) * (p.y - other.y))

/-- Point2D.add: translate by (dx, dy). -/
def Point2D.add (p : Point2D) (dx dy : ℝ) : Point2D :=
  ⟨p.x + dx, p.y + dy⟩

/-- Point2D.equals: coordinatewise comparison with strict tolerance. -/
def Point2D.equals (p other : Point2D) (tolerance : ℝ) : Prop :=
  |p.x - other.x| < tolerance ∧ |p.y - other.y| < tolerance

/-- Vector2D.length: Euclidean norm. -/
def Vector2D.length (v : Vector2D) : ℝ :=
  Real.sqrt (v.x * v.x + v.y * v.y)

/-- Vector2D.length_squared. -/
def Vector2D.length_squared (v : Vector2D) : ℝ :=
  v.x * v.x + v.y * v.y

/-- Vector2D.normalized: divide by the length when positive, else the zero vector. -/
def Vector2D.normalized (v : Vector2D) : Vector2D :=
  if v.length > 0 then ⟨v.x / v.length, v.y / v.length⟩ else ⟨0, 0⟩

/-- Vector2D.dot. -/
def Vector2D.dot (v other : Vector2D) : ℝ :=
  v.x * other.x + v.y * other.y

/-- Vector2D.cross: the scalar 2D cross product. -/
def Vector2D.cross (v other : Vector2D) : ℝ :=
  v.x * other.y - v.y * other.x

/-- Vector2D.perpendicular: rotate 90 degrees counter-clockwise. -/
def Vector2D.perpendicular (v : Vector2D) : Vector2D :=
  ⟨-v.y, v.x⟩

/-- Vector2D.multiply: scalar multiplication. -/
def Vector2D.multiply (v : Vector2D) (scalar : ℝ) : Vector2D :=
  ⟨v.x * scalar, v.y * scalar⟩

/-- Line from planar_geometry/curve/line.py: a point and a direction vector.
The stored direction is whatever the constructor stored; mkLine below models
the constructor, which normalizes the supplied direction. -/
structure Line where
  point : Point2D
  direction : Vector2D

/-- Line.__init__: the constructor normalizes the direction. -/
def mkLine (point : Point2D) (direction : Vector2D) : Line :=
  ⟨point, direction.normalized⟩

/-- Line.get_distance_to_point: absolute value of the cross product of
(point - anchor) with the stored (unit) direction. -/
def Line.get_distance_to_point (l : Line) (point : Point2D) : ℝ :=
  |(point.x - l.point.x) * l.direction.y - (point.y - l.point.y) * l.direction.x|

/-- Line.get_closest_point: orthogonal projection onto the line. -/
def Line.get_closest_point (l : Line) (point : Point2D) : Point2D :=
  let t := (point.x - l.point.x) * l.direction.x + (point.y - l.point.y) * l.direction.y
  ⟨l.point.x + t * l.direction.x, l.point.y + t * l.direction.y⟩

/-- LineSegment from planar_geometry/curve/line_segment.py.
The second endpoint field is named endp because end is reserved in Lean. -/
structure LineSegment where
  start : Point2D
  endp : Point2D

/-- LineSegment.get_parameter: unconstrained projection parameter of a point on
the segment's supporting line; a segment of squared length below 1e-15 is
treated as degenerate and yields 0. -/
def LineSegment.get_parameter (s : LineSegment) (point : Point2D) : ℝ :=
  let dx := s.endp.x - s.start.x
  let dy := s.endp.y - s.start.y
  let len_sq := dx * dx + dy * dy
  if len_sq < 1 / 10 ^ 15 then 0
  else
    let px := point.x - s.start.x
    let py := point.y - s.start.y
    (px * dx + py * dy) / len_sq

/-- LineSegment.get_closest_point: clamp the projection parameter to [0, 1]
and evaluate the segment's parametric form. -/
def LineSegment.get_closest_point (s : LineSegment) (point : Point2D) : Point2D :=
  let t := s.get_parameter point
  let t := max 0 (min 1 t)
  s.start.add (t * (s.endp.x - s.start.x)) (t * (s.endp.y - s.start.y))

/-- LineSegment.get_distance_to_point: distance to the clamped closest point. -/
def LineSegment.get_distance_to_point (s : LineSegment) (point : Point2D) : ℝ :=
  point.distance_to (s.get_closest_point point)

/-- LineSegment.contains_point: the projection parameter is in [0, 1] and the
distance to the segment is below the tolerance. -/
def LineSegment.contains_point (s : LineSegment) (point : Point2D) (tolerance : ℝ) : Prop :=
  0 ≤ s.get_parameter point ∧ s.get_parameter point ≤ 1 ∧
    s.get_distance_to_point point < tolerance

/-- line_segment_intersection from geometry_utils.py: Cramer solve of the two
parametric forms; denominator below tolerance means parallel (None); both
parameters must lie in [-tolerance, 1 + tolerance]. -/
def line_segment_intersection (s1 s2 : LineSegment) (tolerance : ℝ) : Option Point2D :=
  let x1 := s1.start.x; let y1 := s1.start.y
  let x2 := s1.endp.x; let y2 := s1.endp.y
  let x3 := s2.start.x; let y3 := s2.start.y
  let x4 := s2.endp.x; let y4 := s2.endp.y
  let denom := (x1 - x2) * (y3 - y4) - (y1 - y2) * (x3 - x4)
  if |denom| < tolerance then none
  else
    let t := ((x1 - x3) * (y3 - y4) - (y1 - y3) * (x3 - x4)) / denom
    let s := ((x1 - x3) * (y1 - y2) - (y1 - y3) * (x1 - x2)) / denom
    if -tolerance ≤ t ∧ t ≤ 1 + tolerance ∧ -tolerance ≤ s ∧ s ≤ 1 + tolerance then
      some ⟨x1 + t * (x2 - x1), y1 + t * (y2 - y1)⟩
    else none

/-- line_intersection from geometry_utils.py: intersection of two infinite
lines; parallel lines (denominator below tolerance) raise ValueError. -/
def line_intersection (l1 l2 : Line) (tolerance : ℝ) : Except String Point2D :=
  let x1 := l1.point.x; let y1 := l1.point.y
  let x2 := x1 + l1.direction.x; let y2 := y1 + l1.direction.y
  let x3 := l2.point.x; let y3 := l2.point.y
  let x4 := x3 + l2.direction.x; let y4 := y3 + l2.direction.y
  let denom := (x1 - x2) * (y3 - y4) - (y1 - y2) * (x3 - x4)
  if |denom| < tolerance then Except.error ("ValueError: Lines are parallel")
  else
    let t := ((x1 - x3) * (y3 - y4) - (y1 - y3) * (x3 - x4)) / denom
    Except.ok ⟨x1 + t * (x2 - x1), y1 + t * (y2 - y1)⟩

/-- Specification-side predicate: a point lies exactly on an infinite line
(zero cross product with the direction). -/
def liesOnLine (p : Point2D) (l : Line) : Prop :=
  (p.x - l.point.x) * l.direction.y - (p.y - l.point.y) * l.direction.x = 0

/-- Cramer denominator of the segment-segment solver, as written in
line_segment_intersection. -/
def segDenom (s1 s2 : LineSegment) : ℝ :=
  (s1.start.x - s1.endp.x) * (s2.start.y - s2.endp.y) -
    (s1.start.y - s1.endp.y) * (s2.start.x - s2.endp.x)

/-- Specification-side unconstrained projection parameter of a point on a
segment, following the spec wording: parametrize the segment as
start + t (end - start) and solve for t. -/
def spec_projection_parameter (s : LineSegment) (q : Point2D) : ℝ :=
  ((q.x - s.start.x) * (s.endp.x - s.start.x) + (q.y - s.start.y) * (s.endp.y - s.start.y)) /
    ((s.endp.x - s.start.x) ^ 2 + (s.endp.y - s.start.y) ^ 2)

/-- Specification-side closest point: clamp the unconstrained parameter to
[0, 1] and evaluate start + t (end - start). -/
def spec_closest_point (s : LineSegment) (q : Point2D) : Point2D :=
  let t := max 0 (min 1 (spec_projection_parameter s q))
  ⟨s.start.x + t * (s.endp.x - s.start.x), s.start.y + t * (s.endp.y - s.start.y)⟩

/-- Circle from planar_geometry/surface/circle.py: center and radius. -/
structure Circle where
  center : Point2D
  radius : ℝ

/-- point_to_line_distance from geometry_utils.py delegates to the Line method. -/
def point_to_line_distance (point : Point2D) (line : Line) : ℝ :=
  line.get_distance_to_point point

/-- Strict lexicographic order on points by (x, y), the sort key used by the
Python sources. -/
def lexPointLt (p q : Point2D) : Prop :=
  p.x < q.x ∨ (p.x = q.x ∧ p.y < q.y)

/-- Reflexive lexicographic order on points by (x, y). -/
def lexPointLe (p q : Point2D) : Prop :=
  p.x < q.x ∨ (p.x = q.x ∧ p.y ≤ q.y)

theorem lexPoint_total {p q : Point2D} (h : ¬ lexPointLt q p) : lexPointLe p q := by
  simp only [lexPointLt, not_or, not_and, not_lt] at h
  rcases lt_trichotomy p.x q.x with hx | hx | hx
  · exact Or.inl hx
  · exact Or.inr ⟨hx, h.2 hx.symm⟩
  · exact absurd hx (not_lt.mpr h.1)

theorem lexPointLt_le {p q : Point2D} (h : lexPointLt p q) : lexPointLe p q := by
  rcases h with h | ⟨h1, h2⟩
  · exact Or.inl h
  · exact Or.inr ⟨h1, le_of_lt h2⟩

theorem lexPointLe_trans {p q r : Point2D} (h1 : lexPointLe p q) (h2 : lexPointLe q r) :
    lexPointLe p r := by
  rcases h1 with h1 | ⟨h1, h1'⟩ <;> rcases h2 with h2 | ⟨h2, h2'⟩
  · exact Or.inl (lt_trans h1 h2)
  · exact Or.inl (h2 ▸ h1)
  · exact Or.inl (h1 ▸ h2)
  · exact Or.inr ⟨h1.trans h2, le_trans h1' h2'⟩

/-- Stable insertion step of a sort in ascending order: the new element goes
after every element strictly below it and before the first element not below
it, which matches the stable semantics of Python's list sort. -/
def insertBy {α : Type _} (lt : α → α → Prop) (x : α) : List α → List α
  | [] => [x]
  | y :: ys => if lt y x then y :: insertBy lt x ys else x :: y :: ys

/-- sortBy builds the stable ascending sort by inserting from the right. -/
def sortBy {α : Type _} (lt : α → α → Prop) (l : List α) : List α :=
  l.foldr (insertBy lt) []

theorem insertBy_perm {α : Type _} (lt : α → α → Prop) (x : α) :
    ∀ l : List α, (insertBy lt x l).Perm (x :: l)
  | [] => by simp [insertBy]
  | y :: ys => by
      simp only [insertBy]
      by_cases hlt : lt y x
      · rw [if_pos hlt]
        exact ((insertBy_perm lt x ys).cons y).trans (List.Perm.swap x y ys)
      · rw [if_neg hlt]

theorem sortBy_perm {α : Type _} (lt : α → α → Prop) :
    ∀ l : List α, (sortBy lt l).Perm l
  | [] => by simp [sortBy]
  | x :: xs => by
      simp only [sortBy, List.foldr]
      exact (insertBy_perm lt x _).trans ((sortBy_perm lt xs).cons x)

theorem pairwise_insertBy {α : Type _} {lt R : α → α → Prop}
    (h1 : ∀ a b, lt a b → R a b) (h2 : ∀ a b, ¬ lt a b → R b a)
    (htrans : ∀ a b c, R a b → R b c → R a c) (x : α) :
    ∀ l : List α, l.Pairwise R → (insertBy lt x l).Pairwise R
  | [], _ => by simp [insertBy]
  | y :: ys, hp => by
      rcases List.pairwise_cons.mp hp with ⟨hy, hys⟩
      simp only [insertBy]
      by_cases hlt : lt y x
      · rw [if_pos hlt]
        refine List.pairwise_cons.mpr ⟨?_, pairwise_insertBy h1 h2 htrans x ys hys⟩
        intro z hz
        rcases List.mem_cons.mp ((insertBy_perm lt x ys).mem_iff.mp hz) with rfl | hzys
        · exact h1 _ _ hlt
        · exact hy z hzys
      · rw [if_neg hlt]
        refine List.pairwise_cons.mpr ⟨?_, hp⟩
        intro z hz
        rcases List.mem_cons.mp hz with rfl | hzys
        · exact h2 _ _ hlt
        · exact htrans _ _ _ (h2 _ _ hlt) (hy z hzys)

theorem pairwise_sortBy {α : Type _} {lt R : α → α → Prop}
    (h1 : ∀ a b, lt a b → R a b) (h2 : ∀ a b, ¬ lt a b → R b a)
    (htrans : ∀ a b c, R a b → R b c → R a c) :
    ∀ l : List α, (sortBy lt l).Pairwise R
  | [] => by simp [sortBy]
  | x :: xs => by
      simp only [sortBy, List.foldr]
      exact pairwise_insertBy h1 h2 htrans x _ (pairwise_sortBy h1 h2 htrans xs)

theorem sortBy_pair {α : Type _} (lt : α → α → Prop) (a b : α) :
    (¬ lt b a ∧ sortBy lt [a, b] = [a, b]) ∨ (lt b a ∧ sortBy lt [a, b] = [b, a]) := by
  by_cases h : lt b a
  · right
    refine ⟨h, ?_⟩
    simp only [sortBy, List.foldr, insertBy]
    rw [if_pos h]
  · left
    refine ⟨h, ?_⟩
    simp only [sortBy, List.foldr, insertBy]
    rw [if_neg h]

/-- circle_line_intersection from utils/intersection_ops.py: classify by the
squared distance from the center to the line against the squared radius,
then build the projection point and the offset points along the direction;
a two-point result is sorted by (x, y). The unused local variable normal of
the source is omitted. -/
def circle_line_intersection (circle : Circle) (line : Line) (tolerance : ℝ) :
    List Point2D :=
  let center := circle.center
  let radius := circle.radius
  let direction := line.direction
  let dist := point_to_line_distance center line
  let dist_sq := dist * dist
  let radius_sq := radius * radius
  if dist_sq > radius_sq + tolerance then []
  else
    let projection := line.get_closest_point center
    let pair :=
      if dist_sq < tolerance then
        let offset := direction.normalized.multiply radius
        (Point2D.mk (projection.x - offset.x) (projection.y - offset.y),
          Point2D.mk (projection.x + offset.x) (projection.y + offset.y))
      else
        let offset_dist := Real.sqrt (max 0 (radius_sq - dist_sq))
        let offset := direction.normalized.multiply offset_dist
        (Point2D.mk (projection.x - offset.x) (projection.y - offset.y),
          Point2D.mk (projection.x + offset.x) (projection.y + offset.y))
    if |dist_sq - radius_sq| < tolerance then [projection]
    else sortBy lexPointLt [pair.1, pair.2]

theorem distance_to_sq (p q : Point2D) :
    p.distance_to q ^ 2 = (p.x - q.x) ^ 2 + (p.y - q.y) ^ 2 := by
  rw [Point2D.distance_to, Real.sq_sqrt (by nlinarith [sq_nonneg (p.x - q.x), sq_nonneg (p.y - q.y)])]
  ring

theorem normalized_of_unit (v : Vector2D) (h : v.x ^ 2 + v.y ^ 2 = 1) :
    v.normalized = v := by
  have hlen : v.length = 1 := by
    rw [Vector2D.length, show v.x * v.x + v.y * v.y = 1 by nlinarith, Real.sqrt_one]
  rw [Vector2D.normalized, if_pos (by rw [hlen]; norm_num), hlen]
  cases v
  simp

/-- C1 counterexample: the claim says the result has 0 points whenever the
perpendicular distance from the center to the line exceeds the radius.  With
center (0,0), radius 1, the horizontal line through (0, 6/5) and tolerance 1,
the distance is 6/5 > 1 yet the code returns the single tangent-branch
projection point (0, 6/5), because 6/5 squared is within radius squared plus
tolerance and within the tangency tolerance. -/
theorem C1_circle_line_counterexample :
    point_to_line_distance ⟨0, 0⟩ (mkLine ⟨0, 6 / 5⟩ ⟨1, 0⟩) > (1 : ℝ) ∧
    circle_line_intersection ⟨⟨0, 0⟩, 1⟩ (mkLine ⟨0, 6 / 5⟩ ⟨1, 0⟩) 1 =
      [⟨0, 6 / 5⟩] := by
  have hline : mkLine ⟨0, 6 / 5⟩ ⟨1, 0⟩ = ⟨⟨0, 6 / 5⟩, ⟨1, 0⟩⟩ := by
    rw [mkLine, normalized_of_unit ⟨1, 0⟩ (by norm_num)]
  rw [hline]
  have hdist : point_to_line_distance ⟨0, 0⟩ ⟨⟨0, 6 / 5⟩, ⟨1, 0⟩⟩ = 6 / 5 := by
    simp only [point_to_line_distance, Line.get_distance_to_point]
    rw [show ((0 : ℝ) - 0) * 0 - (0 - 6 / 5) * 1 = 6 / 5 by ring]
    rw [abs_of_nonneg (by norm_num)]
  constructor
  · rw [hdist]; norm_num
  · simp only [circle_line_intersection, hdist]
    rw [if_neg (by norm_num)]
    rw [if_pos (by norm_num [abs_lt])]
    simp only [Line.get_closest_point]
    norm_num

set_option maxHeartbeats 1600000 in
/-- C1 (amended): circle-line intersection classified by the code's own
tolerance conditions on squared quantities: result empty when the squared
distance exceeds radius squared plus tolerance; the single projection point
when in addition the squared distance is within tolerance of radius squared;
otherwise two offset points sorted ascending by (x, y).  Each returned
point's squared distance from the center is within tolerance of the radius
squared (the unsquared claim fails; see the counterexample). -/
theorem C1_circle_line_amended (c : Circle) (l : Line) (tolerance : ℝ)
    (htol : 0 < tolerance)
    (hunit : l.direction.x ^ 2 + l.direction.y ^ 2 = 1) :
    (point_to_line_distance c.center l ^ 2 > c.radius ^ 2 + tolerance →
      circle_line_intersection c l tolerance = []) ∧
    (point_to_line_distance c.center l ^ 2 ≤ c.radius ^ 2 + tolerance →
      |point_to_line_distance c.center l ^ 2 - c.radius ^ 2| < tolerance →
      circle_line_intersection c l tolerance = [l.get_closest_point c.center] ∧
      |(l.get_closest_point c.center).distance_to c.center ^ 2 - c.radius ^ 2| < tolerance) ∧
    (point_to_line_distance c.center l ^ 2 ≤ c.radius ^ 2 + tolerance →
      tolerance ≤ |point_to_line_distance c.center l ^ 2 - c.radius ^ 2| →
      ∃ p1 p2 : Point2D, circle_line_intersection c l tolerance = [p1, p2] ∧
        lexPointLe p1 p2 ∧
        |p1.distance_to c.center ^ 2 - c.radius ^ 2| ≤ tolerance ∧
        |p2.distance_to c.center ^ 2 - c.radius ^ 2| ≤ tolerance) := by
  obtain ⟨⟨cx, cy⟩, r⟩ := c
  obtain ⟨⟨px, py⟩, ux, uy⟩ := l
  simp only at hunit
  simp only [circle_line_intersection, point_to_line_distance,
    Line.get_distance_to_point, Line.get_closest_point, distance_to_sq,
    normalized_of_unit ⟨ux, uy⟩ hunit, Vector2D.multiply]
  have habs : |(cx - px) * uy - (cy - py) * ux| * |(cx - px) * uy - (cy - py) * ux| =
      ((cx - px) * uy - (cy - py) * ux) ^ 2 := by
    rw [abs_mul_abs_self]; ring
  have habs2 : |(cx - px) * uy - (cy - py) * ux| ^ 2 =
      ((cx - px) * uy - (cy - py) * ux) ^ 2 := sq_abs _
  have hproj : (px + ((cx - px) * ux + (cy - py) * uy) * ux - cx) ^ 2 +
      (py + ((cx - px) * ux + (cy - py) * uy) * uy - cy) ^ 2 =
      ((cx - px) * uy - (cy - py) * ux) ^ 2 := by
    linear_combination (((cx - px) * ux + (cy - py) * uy) ^ 2 -
      ((cx - px) ^ 2 + (cy - py) ^ 2)) * hunit
  refine ⟨?_, ?_, ?_⟩
  · intro h
    rw [if_pos (by rw [habs]; rw [habs2] at h; nlinarith)]
  · intro h1 h2
    rw [habs2] at h1 h2
    rw [if_neg (by rw [habs]; nlinarith [abs_nonneg (((cx - px) * uy - (cy - py) * ux) ^ 2 - r ^ 2)])]
    rw [if_pos (by rw [habs]; rw [show r * r = r ^ 2 by ring]; exact h2)]
    refine ⟨rfl, ?_⟩
    rw [hproj]
    exact h2
  · intro h1 h2
    rw [habs2] at h1 h2
    rw [if_neg (by rw [habs]; nlinarith [abs_nonneg (((cx - px) * uy - (cy - py) * ux) ^ 2 - r ^ 2)])]
    rw [if_neg (by rw [habs]; rw [show r * r = r ^ 2 by ring]; exact not_lt.mpr h2)]
    by_cases hcl :
        |(cx - px) * uy - (cy - py) * ux| * |(cx - px) * uy - (cy - py) * ux| < tolerance
    · rw [if_pos hcl]
      rw [habs] at hcl
      have hdista : (px + ((cx - px) * ux + (cy - py) * uy) * ux - ux * r - cx) ^ 2 +
          (py + ((cx - px) * ux + (cy - py) * uy) * uy - uy * r - cy) ^ 2 =
          ((cx - px) * uy - (cy - py) * ux) ^ 2 + r ^ 2 := by
        linear_combination ((((cx - px) * ux + (cy - py) * uy) - r) ^ 2 -
          ((cx - px) ^ 2 + (cy - py) ^ 2)) * hunit
      have hdistb : (px + ((cx - px) * ux + (cy - py) * uy) * ux + ux * r - cx) ^ 2 +
          (py + ((cx - px) * ux + (cy - py) * uy) * uy + uy * r - cy) ^ 2 =
          ((cx - px) * uy - (cy - py) * ux) ^ 2 + r ^ 2 := by
        linear_combination ((((cx - px) * ux + (cy - py) * uy) + r) ^ 2 -
          ((cx - px) ^ 2 + (cy - py) ^ 2)) * hunit
      have hbound : |((cx - px) * uy - (cy - py) * ux) ^ 2 + r ^ 2 - r ^ 2| ≤ tolerance := by
        rw [show ((cx - px) * uy - (cy - py) * ux) ^ 2 + r ^ 2 - r ^ 2 =
          ((cx - px) * uy - (cy - py) * ux) ^ 2 by ring]
        rw [abs_of_nonneg (sq_nonneg _)]
        exact le_of_lt hcl
      rcases sortBy_pair lexPointLt
          (Point2D.mk (px + ((cx - px) * ux + (cy - py) * uy) * ux - ux * r)
            (py + ((cx - px) * ux + (cy - py) * uy) * uy - uy * r))
          (Point2D.mk (px + ((cx - px) * ux + (cy - py) * uy) * ux + ux * r)
            (py + ((cx - px) * ux + (cy - py) * uy) * uy + uy * r)) with
        ⟨hnlt, hs⟩ | ⟨hlt, hs⟩
      · refine ⟨_, _, hs, lexPoint_total hnlt, ?_, ?_⟩
        · rw [hdista]
          exact hbound
        · rw [hdistb]
          exact hbound
      · refine ⟨_, _, hs, lexPointLt_le hlt, ?_, ?_⟩
        · rw [hdistb]
          exact hbound
        · rw [hdista]
          exact hbound
    · rw [if_neg hcl]
      rw [habs] at hcl
      have hs2 : Real.sqrt (max 0 (r * r -
          |(cx - px) * uy - (cy - py) * ux| * |(cx - px) * uy - (cy - py) * ux|)) ^ 2 =
          max 0 (r * r - |(cx - px) * uy - (cy - py) * ux| * |(cx - px) * uy - (cy - py) * ux|) :=
        Real.sq_sqrt (le_max_left _ _)
      set s := Real.sqrt (max 0 (r * r -
        |(cx - px) * uy - (cy - py) * ux| * |(cx - px) * uy - (cy - py) * ux|)) with hsdef
      have hdista : (px + ((cx - px) * ux + (cy - py) * uy) * ux - ux * s - cx) ^ 2 +
          (py + ((cx - px) * ux + (cy - py) * uy) * uy - uy * s - cy) ^ 2 =
          ((cx - px) * uy - (cy - py) * ux) ^ 2 + s ^ 2 := by
        linear_combination ((((cx - px) * ux + (cy - py) * uy) - s) ^ 2 -
          ((cx - px) ^ 2 + (cy - py) ^ 2)) * hunit
      have hdistb : (px + ((cx - px) * ux + (cy - py) * uy) * ux + ux * s - cx) ^ 2 +
          (py + ((cx - px) * ux + (cy - py) * uy) * uy + uy * s - cy) ^ 2 =
          ((cx - px) * uy - (cy - py) * ux) ^ 2 + s ^ 2 := by
        linear_combination ((((cx - px) * ux + (cy - py) * uy) + s) ^ 2 -
          ((cx - px) ^ 2 + (cy - py) ^ 2)) * hunit
      have hbound : |((cx - px) * uy - (cy - py) * ux) ^ 2 + s ^ 2 - r ^ 2| ≤ tolerance := by
        rw [hsdef, hs2, habs]
        rcases le_or_lt 0 (r * r - ((cx - px) * uy - (cy - py) * ux) ^ 2) with hmax | hmax
        · rw [max_eq_right hmax]
          rw [show ((cx - px) * uy - (cy - py) * ux) ^ 2 +
            (r * r - ((cx - px) * uy - (cy - py) * ux) ^ 2) - r ^ 2 = 0 by ring]
          rw [abs_zero]
          exact le_of_lt htol
        · rw [max_eq_left (le_of_lt hmax)]
          rw [show ((cx - px) * uy - (cy - py) * ux) ^ 2 + 0 - r ^ 2 =
            ((cx - px) * uy - (cy - py) * ux) ^ 2 - r ^ 2 by ring]
          rw [abs_of_nonneg (by nlinarith)]
          nlinarith
      rcases sortBy_pair lexPointLt
          (Point2D.mk (px + ((cx - px) * ux + (cy - py) * uy) * ux - ux * s)
            (py + ((cx - px) * ux + (cy - py) * uy) * uy - uy * s))
          (Point2D.mk (px + ((cx - px) * ux + (cy - py) * uy) * ux + ux * s)
            (py + ((cx - px) * ux + (cy - py) * uy) * uy + uy * s)) with
        ⟨hnlt, hs⟩ | ⟨hlt, hs⟩
      · refine ⟨_, _, hs, lexPoint_total hnlt, ?_, ?_⟩
        · rw [hdista]
          exact hbound
        · rw [hdistb]
          exact hbound
      · refine ⟨_, _, hs, lexPointLt_le hlt, ?_, ?_⟩
        · rw [hdistb]
          exact hbound
        · rw [hdista]
          exact hbound

/-- Witness for C1 at concrete inputs covering all three regimes: a distant
line (empty), a tangency-tolerance line (one point), and a secant line
through the center (two sorted points). -/
theorem C1_circle_line_witness :
    circle_line_intersection ⟨⟨0, 0⟩, 1⟩ ⟨⟨0, 3⟩, ⟨1, 0⟩⟩ (1 / 10 ^ 10) = [] ∧
    (circle_line_intersection ⟨⟨0, 0⟩, 1⟩ ⟨⟨0, 6 / 5⟩, ⟨1, 0⟩⟩ 1 =
        [(⟨⟨0, 6 / 5⟩, ⟨1, 0⟩⟩ : Line).get_closest_point ⟨0, 0⟩] ∧
      |((⟨⟨0, 6 / 5⟩, ⟨1, 0⟩⟩ : Line).get_closest_point ⟨0, 0⟩).distance_to ⟨0, 0⟩ ^ 2 -
          (1 : ℝ) ^ 2| < 1) ∧
    ∃ p1 p2 : Point2D,
      circle_line_intersection ⟨⟨0, 0⟩, 5⟩ ⟨⟨-10, 0⟩, ⟨1, 0⟩⟩ (1 / 10 ^ 10) = [p1, p2] ∧
      lexPointLe p1 p2 ∧
      |p1.distance_to ⟨0, 0⟩ ^ 2 - (5 : ℝ) ^ 2| ≤ 1 / 10 ^ 10 ∧
      |p2.distance_to ⟨0, 0⟩ ^ 2 - (5 : ℝ) ^ 2| ≤ 1 / 10 ^ 10 := by
  have hd1 : point_to_line_distance (⟨0, 0⟩ : Point2D) ⟨⟨0, 3⟩, ⟨1, 0⟩⟩ = 3 := by
    simp only [point_to_line_distance, Line.get_distance_to_point]
    rw [show ((0 : ℝ) - 0) * 0 - (0 - 3) * 1 = 3 by ring, abs_of_nonneg (by norm_num)]
  have hd2 : point_to_line_distance (⟨0, 0⟩ : Point2D) ⟨⟨0, 6 / 5⟩, ⟨1, 0⟩⟩ = 6 / 5 := by
    simp only [point_to_line_distance, Line.get_distance_to_point]
    rw [show ((0 : ℝ) - 0) * 0 - (0 - 6 / 5) * 1 = 6 / 5 by ring, abs_of_nonneg (by norm_num)]
  have hd3 : point_to_line_distance (⟨0, 0⟩ : Point2D) ⟨⟨-10, 0⟩, ⟨1, 0⟩⟩ = 0 := by
    simp only [point_to_line_distance, Line.get_distance_to_point]
    rw [show ((0 : ℝ) - -10) * 0 - (0 - 0) * 1 = 0 by ring, abs_zero]
  refine ⟨?_, ?_, ?_⟩
  · exact (C1_circle_line_amended ⟨⟨0, 0⟩, 1⟩ ⟨⟨0, 3⟩, ⟨1, 0⟩⟩ (1 / 10 ^ 10)
      (by norm_num) (by norm_num)).1 (by rw [hd1]; norm_num)
  · exact (C1_circle_line_amended ⟨⟨0, 0⟩, 1⟩ ⟨⟨0, 6 / 5⟩, ⟨1, 0⟩⟩ 1
      (by norm_num) (by norm_num)).2.1 (by rw [hd2]; norm_num)
      (by rw [hd2, abs_of_nonneg (by norm_num : (0 : ℝ) ≤ (6 / 5) ^ 2 - 1 ^ 2)]; norm_num)
  · exact (C1_circle_line_amended ⟨⟨0, 0⟩, 5⟩ ⟨⟨-10, 0⟩, ⟨1, 0⟩⟩ (1 / 10 ^ 10)
      (by norm_num) (by norm_num)).2.2 (by rw [hd3]; norm_num)
      (by rw [hd3, abs_sub_comm, abs_of_nonneg (by norm_num : (0 : ℝ) ≤ 5 ^ 2 - 0 ^ 2)]; norm_num)

/-- C2: on a near-zero Cramer denominator, segment-segment intersection
returns None while line-line intersection raises a ValueError domain error;
for non-parallel directions line-line returns a point lying on both lines
and does not raise. -/
theorem C2_parallel_policy (s1 s2 : LineSegment) (l1 l2 : Line) (tolerance : ℝ)
    (htol : 0 < tolerance) :
    (|segDenom s1 s2| < tolerance → line_segment_intersection s1 s2 tolerance = none) ∧
    (|Vector2D.cross l1.direction l2.direction| < tolerance →
      line_intersection l1 l2 tolerance = Except.error ("ValueError: Lines are parallel")) ∧
    (tolerance ≤ |Vector2D.cross l1.direction l2.direction| →
      ∃ p : Point2D, line_intersection l1 l2 tolerance = Except.ok p ∧
        liesOnLine p l1 ∧ liesOnLine p l2) := by
  have hdenom :
      (l1.point.x - (l1.point.x + l1.direction.x)) *
          (l2.point.y - (l2.point.y + l2.direction.y)) -
        (l1.point.y - (l1.point.y + l1.direction.y)) *
          (l2.point.x - (l2.point.x + l2.direction.x)) =
      Vector2D.cross l1.direction l2.direction := by
    simp only [Vector2D.cross]; ring
  refine ⟨?_, ?_, ?_⟩
  · intro h
    simp only [line_segment_intersection]
    rw [if_pos]
    exact h
  · intro h
    simp only [line_intersection]
    rw [if_pos]
    rw [hdenom]
    exact h
  · intro h
    have hne : Vector2D.cross l1.direction l2.direction ≠ 0 := by
      intro h0
      rw [h0] at h
      simp at h
      linarith
    have hD : (l1.point.x - (l1.point.x + l1.direction.x)) *
          (l2.point.y - (l2.point.y + l2.direction.y)) -
        (l1.point.y - (l1.point.y + l1.direction.y)) *
          (l2.point.x - (l2.point.x + l2.direction.x)) ≠ 0 := by
      rw [hdenom]; exact hne
    simp only [line_intersection]
    rw [if_neg (by rw [hdenom]; exact not_lt.mpr h)]
    refine ⟨_, rfl, ?_, ?_⟩
    · simp only [liesOnLine]
      ring
    · simp only [liesOnLine]
      have hT := div_mul_cancel₀
        ((l1.point.x - l2.point.x) * (l2.point.y - (l2.point.y + l2.direction.y)) -
          (l1.point.y - l2.point.y) * (l2.point.x - (l2.point.x + l2.direction.x))) hD
      linear_combination hT

/-- Witness for C2 at concrete inputs: two parallel horizontal segments give
None, two parallel horizontal lines give the ValueError, and a horizontal and
a vertical line give a point on both lines. -/
theorem C2_parallel_policy_witness :
    line_segment_intersection ⟨⟨0, 0⟩, ⟨1, 0⟩⟩ ⟨⟨0, 1⟩, ⟨1, 1⟩⟩ (1 / 10 ^ 9) = none ∧
    line_intersection ⟨⟨0, 0⟩, ⟨1, 0⟩⟩ ⟨⟨0, 1⟩, ⟨1, 0⟩⟩ (1 / 10 ^ 9) =
      Except.error ("ValueError: Lines are parallel") ∧
    ∃ p : Point2D, line_intersection ⟨⟨0, 2⟩, ⟨1, 0⟩⟩ ⟨⟨3, 0⟩, ⟨0, 1⟩⟩ (1 / 10 ^ 9) =
      Except.ok p ∧ liesOnLine p ⟨⟨0, 2⟩, ⟨1, 0⟩⟩ ∧ liesOnLine p ⟨⟨3, 0⟩, ⟨0, 1⟩⟩ := by
  refine ⟨?_, ?_, ?_⟩
  · exact (C2_parallel_policy ⟨⟨0, 0⟩, ⟨1, 0⟩⟩ ⟨⟨0, 1⟩, ⟨1, 1⟩⟩ ⟨⟨0, 0⟩, ⟨1, 0⟩⟩
      ⟨⟨0, 1⟩, ⟨1, 0⟩⟩ (1 / 10 ^ 9) (by norm_num)).1
      (by simp only [segDenom]; norm_num)
  · exact (C2_parallel_policy ⟨⟨0, 0⟩, ⟨1, 0⟩⟩ ⟨⟨0, 1⟩, ⟨1, 1⟩⟩ ⟨⟨0, 0⟩, ⟨1, 0⟩⟩
      ⟨⟨0, 1⟩, ⟨1, 0⟩⟩ (1 / 10 ^ 9) (by norm_num)).2.1
      (by simp only [Vector2D.cross]; norm_num)
  · exact (C2_parallel_policy ⟨⟨0, 0⟩, ⟨1, 0⟩⟩ ⟨⟨0, 1⟩, ⟨1, 1⟩⟩ ⟨⟨0, 2⟩, ⟨1, 0⟩⟩
      ⟨⟨3, 0⟩, ⟨0, 1⟩⟩ (1 / 10 ^ 9) (by norm_num)).2.2
      (by simp only [Vector2D.cross]; norm_num)

/-- C8: get_closest_point evaluates start + t (end - start) with t the
unconstrained projection parameter clamped to [0, 1]; a zero-length segment
forces the parameter to 0 and returns the start point. The embedded
functions are total, so no input raises. -/
theorem C8_closest_point_is_clamped_projection (s : LineSegment) (q : Point2D) :
    (1 / 10 ^ 15 ≤ (s.endp.x - s.start.x) ^ 2 + (s.endp.y - s.start.y) ^ 2 →
      s.get_parameter q = spec_projection_parameter s q ∧
      s.get_closest_point q = spec_closest_point s q) ∧
    (s.start = s.endp → s.get_parameter q = 0 ∧ s.get_closest_point q = s.start) := by
  constructor
  · intro h
    have hsq : (s.endp.x - s.start.x) * (s.endp.x - s.start.x) +
        (s.endp.y - s.start.y) * (s.endp.y - s.start.y) =
        (s.endp.x - s.start.x) ^ 2 + (s.endp.y - s.start.y) ^ 2 := by ring
    have hnlt : ¬ ((s.endp.x - s.start.x) * (s.endp.x - s.start.x) +
        (s.endp.y - s.start.y) * (s.endp.y - s.start.y) < 1 / 10 ^ 15) := by
      rw [hsq]; exact not_lt.mpr h
    have hpar : s.get_parameter q = spec_projection_parameter s q := by
      simp only [LineSegment.get_parameter, spec_projection_parameter]
      rw [if_neg hnlt, hsq]
    refine ⟨hpar, ?_⟩
    simp only [LineSegment.get_closest_point, spec_closest_point, Point2D.add, hpar]
  · intro h
    have hdx : s.endp.x - s.start.x = 0 := by rw [← h]; ring
    have hdy : s.endp.y - s.start.y = 0 := by rw [← h]; ring
    have hpar : s.get_parameter q = 0 := by
      simp only [LineSegment.get_parameter, hdx, hdy]
      rw [if_pos (by norm_num)]
    refine ⟨hpar, ?_⟩
    simp only [LineSegment.get_closest_point, Point2D.add, hpar, hdx, hdy]
    simp

/-- Result type of circles_intersection, whose Python return type is the
union of a point list and a classification string. -/
inductive CirclesResult where
  | points : List Point2D → CirclesResult
  | special : String → CirclesResult

/-- circles_intersection from utils/intersection_ops.py: classify two circles
by the center distance d against 0, the radius sum and the absolute radius
difference, and in the two-point case build the radical-line construction
with offset a along the center axis and half-chord h perpendicular to it. -/
def circles_intersection (circle1 circle2 : Circle) (tolerance : ℝ) : CirclesResult :=
  let c1 := circle1.center
  let c2 := circle2.center
  let r1 := circle1.radius
  let r2 := circle2.radius
  let d := c1.distance_to c2
  let d_sq := d * d
  if d < tolerance then CirclesResult.special ("concentric")
  else if |d - (r1 + r2)| < tolerance then
    let direction := (Vector2D.mk (c2.x - c1.x) (c2.y - c1.y)).normalized
    CirclesResult.points [⟨c1.x + direction.x * r1, c1.y + direction.y * r1⟩]
  else if |d - abs (r1 - r2)| < tolerance then
    let point :=
      if r1 > r2 then
        let direction := (Vector2D.mk (c2.x - c1.x) (c2.y - c1.y)).normalized
        Point2D.mk (c1.x + direction.x * r1) (c1.y + direction.y * r1)
      else
        let direction := (Vector2D.mk (c1.x - c2.x) (c1.y - c2.y)).normalized
        Point2D.mk (c2.x + direction.x * r2) (c2.y + direction.y * r2)
    CirclesResult.points [point]
  else if d > r1 + r2 + tolerance ∨ d < |r1 - r2| - tolerance then
    CirclesResult.special ("no_intersection")
  else
    let a := (d_sq + r1 * r1 - r2 * r2) / (2 * d)
    let h_sq := r1 * r1 - a * a
    let h_sq := if h_sq < 0 then 0 else h_sq
    let h := Real.sqrt h_sq
    let direction := (Vector2D.mk (c2.x - c1.x) (c2.y - c1.y)).normalized
    let px := c1.x + direction.x * a
    let py := c1.y + direction.y * a
    let perp := direction.perpendicular.normalized
    CirclesResult.points [⟨px + perp.x * h, py + perp.y * h⟩, ⟨px - perp.x * h, py - perp.y * h⟩]

/-- Specification-side predicate: p lies on the axis through the two centers. -/
def onCenterAxis (p : Point2D) (circle1 circle2 : Circle) : Prop :=
  (p.x - circle1.center.x) * (circle2.center.y - circle1.center.y) -
    (p.y - circle1.center.y) * (circle2.center.x - circle1.center.x) = 0

/-- Witness for C8: a horizontal length-4 segment with an off-segment query
point, and an exactly degenerate one-point segment. -/
theorem C8_closest_point_witness :
    ((⟨⟨0, 0⟩, ⟨4, 0⟩⟩ : LineSegment).get_parameter ⟨5, 3⟩ =
        spec_projection_parameter ⟨⟨0, 0⟩, ⟨4, 0⟩⟩ ⟨5, 3⟩ ∧
      (⟨⟨0, 0⟩, ⟨4, 0⟩⟩ : LineSegment).get_closest_point ⟨5, 3⟩ =
        spec_closest_point ⟨⟨0, 0⟩, ⟨4, 0⟩⟩ ⟨5, 3⟩) ∧
    ((⟨⟨2, 2⟩, ⟨2, 2⟩⟩ : LineSegment).get_parameter ⟨7, 9⟩ = 0 ∧
      (⟨⟨2, 2⟩, ⟨2, 2⟩⟩ : LineSegment).get_closest_point ⟨7, 9⟩ = ⟨2, 2⟩) := by
  constructor
  · exact (C8_closest_point_is_clamped_projection ⟨⟨0, 0⟩, ⟨4, 0⟩⟩ ⟨5, 3⟩).1 (by norm_num)
  · exact (C8_closest_point_is_clamped_projection ⟨⟨2, 2⟩, ⟨2, 2⟩⟩ ⟨7, 9⟩).2 rfl

set_option maxHeartbeats 1600000 in
/-- C4: circles_intersection classifies by the center distance d against 0,
the absolute radius difference and the radius sum: concentric below
tolerance, external or internal tangency returning a single point on the
center-to-center axis, disjoint, or two radical-line points whose midpoint
lies on the center axis with their difference perpendicular to it; the
concentric and disjoint outcomes are distinguishable strings rather than
empty point lists; and the circles centered (0,0) and (4,0) with radius 3
yield the two points (2, sqrt 5) and (2, -sqrt 5), symmetric about the
x-axis at x = 2. -/
theorem C4_circles_intersection_classification (c1 c2 : Circle) (tolerance : ℝ)
    (htol : 0 < tolerance) :
    (c1.center.distance_to c2.center < tolerance →
      circles_intersection c1 c2 tolerance = CirclesResult.special ("concentric")) ∧
    (tolerance ≤ c1.center.distance_to c2.center →
      |c1.center.distance_to c2.center - (c1.radius + c2.radius)| < tolerance →
      ∃ p : Point2D, circles_intersection c1 c2 tolerance = CirclesResult.points [p] ∧
        onCenterAxis p c1 c2) ∧
    (tolerance ≤ c1.center.distance_to c2.center →
      tolerance ≤ |c1.center.distance_to c2.center - (c1.radius + c2.radius)| →
      |c1.center.distance_to c2.center - abs (c1.radius - c2.radius)| < tolerance →
      ∃ p : Point2D, circles_intersection c1 c2 tolerance = CirclesResult.points [p] ∧
        onCenterAxis p c1 c2) ∧
    (tolerance ≤ c1.center.distance_to c2.center →
      tolerance ≤ |c1.center.distance_to c2.center - (c1.radius + c2.radius)| →
      tolerance ≤ |c1.center.distance_to c2.center - abs (c1.radius - c2.radius)| →
      (c1.center.distance_to c2.center > c1.radius + c2.radius + tolerance ∨
        c1.center.distance_to c2.center < |c1.radius - c2.radius| - tolerance) →
      circles_intersection c1 c2 tolerance = CirclesResult.special ("no_intersection")) ∧
    (tolerance ≤ c1.center.distance_to c2.center →
      tolerance ≤ |c1.center.distance_to c2.center - (c1.radius + c2.radius)| →
      tolerance ≤ |c1.center.distance_to c2.center - abs (c1.radius - c2.radius)| →
      ¬ (c1.center.distance_to c2.center > c1.radius + c2.radius + tolerance ∨
        c1.center.distance_to c2.center < |c1.radius - c2.radius| - tolerance) →
      ∃ p1 p2 : Point2D, circles_intersection c1 c2 tolerance = CirclesResult.points [p1, p2] ∧
        onCenterAxis ⟨(p1.x + p2.x) / 2, (p1.y + p2.y) / 2⟩ c1 c2 ∧
        (p1.x - p2.x) * (c2.center.x - c1.center.x) +
          (p1.y - p2.y) * (c2.center.y - c1.center.y) = 0) ∧
    (circles_intersection ⟨⟨0, 0⟩, 3⟩ ⟨⟨4, 0⟩, 3⟩ (1 / 10 ^ 10) =
        CirclesResult.points [⟨2, Real.sqrt 5⟩, ⟨2, -Real.sqrt 5⟩] ∧
      0 < Real.sqrt 5) := by
  obtain ⟨⟨c1x, c1y⟩, r1⟩ := c1
  obtain ⟨⟨c2x, c2y⟩, r2⟩ := c2
  simp only [circles_intersection, onCenterAxis]
  have hdd : Point2D.distance_to ⟨c1x, c1y⟩ ⟨c2x, c2y⟩ *
      Point2D.distance_to ⟨c1x, c1y⟩ ⟨c2x, c2y⟩ =
      (c1x - c2x) * (c1x - c2x) + (c1y - c2y) * (c1y - c2y) := by
    rw [Point2D.distance_to]
    exact Real.mul_self_sqrt (by nlinarith [sq_nonneg (c1x - c2x), sq_nonneg (c1y - c2y)])
  have hvlen : ∀ vx vy : ℝ, vx * vx + vy * vy =
      (c1x - c2x) * (c1x - c2x) + (c1y - c2y) * (c1y - c2y) →
      (Vector2D.mk vx vy).length = Point2D.distance_to ⟨c1x, c1y⟩ ⟨c2x, c2y⟩ := by
    intro vx vy hvv
    rw [Vector2D.length, Point2D.distance_to]
    congr 1
  refine ⟨?_, ?_, ?_, ?_, ?_, ?_⟩
  · intro h
    rw [if_pos h]
  · intro hge h
    have hd0 : (0 : ℝ) < Point2D.distance_to ⟨c1x, c1y⟩ ⟨c2x, c2y⟩ := lt_of_lt_of_le htol hge
    rw [if_neg (not_lt.mpr hge), if_pos h]
    rw [Vector2D.normalized, if_pos
      (by rw [hvlen (c2x - c1x) (c2y - c1y) (by ring)]; exact hd0)]
    rw [hvlen (c2x - c1x) (c2y - c1y) (by ring)]
    refine ⟨_, rfl, ?_⟩
    simp only
    ring
  · intro hge h1 h2
    have hd0 : (0 : ℝ) < Point2D.distance_to ⟨c1x, c1y⟩ ⟨c2x, c2y⟩ := lt_of_lt_of_le htol hge
    rw [if_neg (not_lt.mpr hge), if_neg (not_lt.mpr h1), if_pos h2]
    by_cases hr : r1 > r2
    · rw [if_pos hr]
      rw [Vector2D.normalized, if_pos
        (by rw [hvlen (c2x - c1x) (c2y - c1y) (by ring)]; exact hd0)]
      rw [hvlen (c2x - c1x) (c2y - c1y) (by ring)]
      refine ⟨_, rfl, ?_⟩
      simp only
      ring
    · rw [if_neg hr]
      rw [Vector2D.normalized, if_pos
        (by rw [hvlen (c1x - c2x) (c1y - c2y) (by ring)]; exact hd0)]
      rw [hvlen (c1x - c2x) (c1y - c2y) (by ring)]
      refine ⟨_, rfl, ?_⟩
      simp only
      ring
  · intro hge h1 h2 h3
    rw [if_neg (not_lt.mpr hge), if_neg (not_lt.mpr h1), if_neg (not_lt.mpr h2), if_pos h3]
  · intro hge h1 h2 h3
    have hd0 : (0 : ℝ) < Point2D.distance_to ⟨c1x, c1y⟩ ⟨c2x, c2y⟩ := lt_of_lt_of_le htol hge
    rw [if_neg (not_lt.mpr hge), if_neg (not_lt.mpr h1), if_neg (not_lt.mpr h2), if_neg h3]
    rw [Vector2D.normalized, if_pos
      (by rw [hvlen (c2x - c1x) (c2y - c1y) (by ring)]; exact hd0)]
    rw [hvlen (c2x - c1x) (c2y - c1y) (by ring)]
    simp only [Vector2D.perpendicular]
    have hperp : (Vector2D.mk
        (-((c2y - c1y) / Point2D.distance_to ⟨c1x, c1y⟩ ⟨c2x, c2y⟩))
        ((c2x - c1x) / Point2D.distance_to ⟨c1x, c1y⟩ ⟨c2x, c2y⟩)).normalized =
        Vector2D.mk
          (-((c2y - c1y) / Point2D.distance_to ⟨c1x, c1y⟩ ⟨c2x, c2y⟩))
          ((c2x - c1x) / Point2D.distance_to ⟨c1x, c1y⟩ ⟨c2x, c2y⟩) := by
      apply normalized_of_unit
      simp only
      rw [neg_sq, div_pow, div_pow, div_add_div_same]
      rw [div_eq_one_iff_eq (pow_ne_zero 2 (ne_of_gt hd0))]
      linear_combination (-1 : ℝ) * hdd
    rw [hperp]
    refine ⟨_, _, rfl, ?_, ?_⟩
    · simp only
      ring
    · simp only
      ring
  · constructor
    · have hd4 : Point2D.distance_to ⟨0, 0⟩ ⟨4, 0⟩ = 4 := by
        rw [Point2D.distance_to]
        rw [show ((0 : ℝ) - 4) * (0 - 4) + (0 - 0) * (0 - 0) = 4 ^ 2 by norm_num]
        exact Real.sqrt_sq (by norm_num)
      have habs2 : |(4 : ℝ) - (3 + 3)| = 2 := by
        rw [show (4 : ℝ) - (3 + 3) = -2 by norm_num, abs_neg, abs_of_nonneg] <;> norm_num
      have habs0 : |(3 : ℝ) - 3| = 0 := by
        rw [show (3 : ℝ) - 3 = 0 by norm_num, abs_zero]
      have habs4 : |(4 : ℝ) - abs ((3 : ℝ) - 3)| = 4 := by
        rw [habs0, show (4 : ℝ) - 0 = 4 by norm_num, abs_of_nonneg] <;> norm_num
      simp only [hd4]
      rw [if_neg (by norm_num), if_neg (by rw [habs2]; norm_num),
        if_neg (by rw [habs4]; norm_num),
        if_neg (by rw [habs0]; push_neg; constructor <;> norm_num)]
      have hnorm : (Vector2D.mk ((4 : ℝ) - 0) ((0 : ℝ) - 0)).normalized = Vector2D.mk 1 0 := by
        have hlen : (Vector2D.mk ((4 : ℝ) - 0) ((0 : ℝ) - 0)).length = 4 := by
          rw [Vector2D.length]
          rw [show ((4 : ℝ) - 0) * (4 - 0) + (0 - 0) * (0 - 0) = 4 ^ 2 by norm_num]
          exact Real.sqrt_sq (by norm_num)
        rw [Vector2D.normalized, if_pos (by rw [hlen]; norm_num), hlen]
        rw [Vector2D.mk.injEq]
        norm_num
      rw [hnorm]
      have hperp : (Vector2D.mk (1 : ℝ) 0).perpendicular.normalized = Vector2D.mk 0 1 := by
        rw [Vector2D.perpendicular]
        have := normalized_of_unit (Vector2D.mk (-(0 : ℝ)) 1) (by norm_num)
        rw [this, Vector2D.mk.injEq]
        norm_num
      rw [hperp]
      rw [if_neg (by norm_num)]
      simp only
      rw [show (3 : ℝ) * 3 - (4 * 4 + 3 * 3 - 3 * 3) / (2 * 4) * ((4 * 4 + 3 * 3 - 3 * 3) / (2 * 4)) = 5 by norm_num]
      norm_num [CirclesResult.points.injEq, Point2D.mk.injEq]
    · exact Real.sqrt_pos.mpr (by norm_num)

/-- Witness for C4: the concrete (0,0)/(4,0) radius-3 pair from the claim,
and a concentric pair. -/
theorem C4_circles_intersection_witness :
    circles_intersection ⟨⟨0, 0⟩, 3⟩ ⟨⟨4, 0⟩, 3⟩ (1 / 10 ^ 10) =
      CirclesResult.points [⟨2, Real.sqrt 5⟩, ⟨2, -Real.sqrt 5⟩] ∧
    0 < Real.sqrt 5 ∧
    circles_intersection ⟨⟨0, 0⟩, 1⟩ ⟨⟨0, 0⟩, 2⟩ 1 = CirclesResult.special ("concentric") := by
  refine ⟨(C4_circles_intersection_classification ⟨⟨0, 0⟩, 3⟩ ⟨⟨4, 0⟩, 3⟩ (1 / 10 ^ 10)
      (by norm_num)).2.2.2.2.2.1,
    (C4_circles_intersection_classification ⟨⟨0, 0⟩, 3⟩ ⟨⟨4, 0⟩, 3⟩ (1 / 10 ^ 10)
      (by norm_num)).2.2.2.2.2.2, ?_⟩
  refine (C4_circles_intersection_classification ⟨⟨0, 0⟩, 1⟩ ⟨⟨0, 0⟩, 2⟩ 1 (by norm_num)).1 ?_
  rw [Point2D.distance_to]
  rw [show ((0 : ℝ) - 0) * (0 - 0) + (0 - 0) * (0 - 0) = 0 by norm_num, Real.sqrt_zero]
  norm_num

/-- Polygon from planar_geometry/surface/polygon.py: an ordered vertex list.
The constructor validation is modelled by polygonMk. -/
structure Polygon where
  vertices : List Point2D

/-- Polygon.TOLERANCE class attribute (1e-6). -/
def Polygon.TOLERANCE : ℝ := 1 / 10 ^ 6

/-- Polygon.__init__: fewer than 3 vertices raise ValueError. -/
def polygonMk (vertices : List Point2D) : Except String Polygon :=
  if vertices.length < 3 then Except.error ("ValueError: a polygon needs at least 3 vertices")
  else Except.ok ⟨vertices⟩

/-- Polygon.get_edge: vertex index modulo n paired with its successor. -/
def Polygon.get_edge (poly : Polygon) (index : ℕ) : Point2D × Point2D :=
  let n := poly.vertices.length
  let idx := index % n
  (poly.vertices.getD idx ⟨0, 0⟩, poly.vertices.getD ((idx + 1) % n) ⟨0, 0⟩)

/-- Polygon.get_edges: all edges, the last one closing back to vertex 0. -/
def Polygon.get_edges (poly : Polygon) : List (Point2D × Point2D) :=
  let n := poly.vertices.length
  (List.range n).map fun i =>
    (poly.vertices.getD i ⟨0, 0⟩, poly.vertices.getD ((i + 1) % n) ⟨0, 0⟩)

/-- Crossing test of the ray-casting loop in Polygon.contains_point for edge
(vertices[j], vertices[i]) with j the cyclic predecessor of i: the edge
straddles the horizontal through the query point and the ray to the right of
the query point meets it. -/
def crossing_condition (poly : Polygon) (point : Point2D) (i : ℕ) : Prop :=
  let n := poly.vertices.length
  let vi := poly.vertices.getD i ⟨0, 0⟩
  let vj := poly.vertices.getD ((i + n - 1) % n) ⟨0, 0⟩
  (¬ ((vi.y > point.y) ↔ (vj.y > point.y))) ∧
    point.x < (vj.x - vi.x) * (point.y - vi.y) / (vj.y - vi.y) + vi.x

/-- Ray-casting loop of Polygon.contains_point: toggle the inside flag on
every crossing edge. -/
def Polygon.raycast_inside (poly : Polygon) (point : Point2D) : Bool :=
  (List.range poly.vertices.length).foldl
    (fun inside i => if crossing_condition poly point i then !inside else inside) false

/-- Polygon.contains_point: the ray cast, with the boundary fallback loop that
reclassifies points within TOLERANCE of a vertex or an edge as contained;
the early-return loop is rendered as an existential over the edge indices. -/
def Polygon.contains_point (poly : Polygon) (point : Point2D) : Prop :=
  poly.raycast_inside point = true ∨
    ∃ i < poly.vertices.length,
      (poly.get_edge i).1.equals point Polygon.TOLERANCE ∨
      (poly.get_edge i).2.equals point Polygon.TOLERANCE ∨
      (LineSegment.mk (poly.get_edge i).1 (poly.get_edge i).2).contains_point point
        Polygon.TOLERANCE

theorem foldl_toggle_parity (c : ℕ → Prop) :
    ∀ (n : ℕ) (b : Bool),
    (List.range n).foldl (fun inside i => if c i then !inside else inside) b =
      xor b (decide (Odd ((Finset.range n).filter c).card))
  | 0, b => by simp
  | n + 1, b => by
      rw [List.range_succ, List.foldl_append, foldl_toggle_parity c n b]
      simp only [List.foldl_cons, List.foldl_nil]
      rw [Finset.range_succ, Finset.filter_insert]
      by_cases hc : c n
      · rw [if_pos hc, if_pos hc]
        rw [Finset.card_insert_of_not_mem (by simp)]
        by_cases ho : Odd ((Finset.range n).filter c).card
        · have hno : ¬ Odd (((Finset.range n).filter c).card + 1) := by
            simp [Nat.odd_add_one, Nat.even_iff_not_odd, ho]
          simp [ho, hno]
        · have hyes : Odd (((Finset.range n).filter c).card + 1) := by
            simp [Nat.odd_add_one, Nat.even_iff_not_odd, ho]
          simp [ho, hyes]
      · rw [if_neg hc, if_neg hc]

theorem coord_abs_le_distance (p q : Point2D) :
    |p.x - q.x| ≤ p.distance_to q ∧ |p.y - q.y| ≤ p.distance_to q := by
  constructor
  · rw [Point2D.distance_to, ← Real.sqrt_sq_eq_abs]
    exact Real.sqrt_le_sqrt (by nlinarith [sq_nonneg (p.y - q.y)])
  · rw [Point2D.distance_to, ← Real.sqrt_sq_eq_abs]
    exact Real.sqrt_le_sqrt (by nlinarith [sq_nonneg (p.x - q.x)])

/-- C5: contains_point decides membership by the even-odd rule (parity of the
crossing count over the edge list) with the boundary fallback, and every
point strictly within TOLERANCE of some boundary edge is contained. -/
theorem C5_contains_point_even_odd_with_boundary (poly : Polygon) (point : Point2D) :
    (poly.contains_point point ↔
      (Odd ((Finset.range poly.vertices.length).filter (crossing_condition poly point)).card ∨
        ∃ i < poly.vertices.length,
          (poly.get_edge i).1.equals point Polygon.TOLERANCE ∨
          (poly.get_edge i).2.equals point Polygon.TOLERANCE ∨
          (LineSegment.mk (poly.get_edge i).1 (poly.get_edge i).2).contains_point point
            Polygon.TOLERANCE)) ∧
    (∀ i < poly.vertices.length,
      (LineSegment.mk (poly.get_edge i).1 (poly.get_edge i).2).get_distance_to_point point <
        Polygon.TOLERANCE →
      poly.contains_point point) := by
  constructor
  · rw [Polygon.contains_point, Polygon.raycast_inside]
    rw [foldl_toggle_parity (crossing_condition poly point) poly.vertices.length false]
    constructor
    · rintro (h | h)
      · left
        simpa using h
      · right; exact h
    · rintro (h | h)
      · left
        simpa using h
      · right; exact h
  · intro i hi hdist
    set a := (poly.get_edge i).1 with ha
    set b := (poly.get_edge i).2 with hb
    set seg := LineSegment.mk a b with hseg
    right
    refine ⟨i, hi, ?_⟩
    by_cases hdeg : (b.x - a.x) * (b.x - a.x) + (b.y - a.y) * (b.y - a.y) < 1 / 10 ^ 15
    · -- degenerate edge: the closest point is the start vertex
      left
      have hpar : seg.get_parameter point = 0 := by
        rw [LineSegment.get_parameter]
        exact if_pos hdeg
      have hclosest : seg.get_closest_point point = a := by
        rw [LineSegment.get_closest_point, hpar]
        simp [Point2D.add]
      rw [LineSegment.get_distance_to_point, hclosest] at hdist
      have hc := coord_abs_le_distance point a
      constructor
      · calc |a.x - point.x| = |point.x - a.x| := abs_sub_comm _ _
          _ ≤ point.distance_to a := hc.1
          _ < Polygon.TOLERANCE := hdist
      · calc |a.y - point.y| = |point.y - a.y| := abs_sub_comm _ _
          _ ≤ point.distance_to a := hc.2
          _ < Polygon.TOLERANCE := hdist
    · have hpar : seg.get_parameter point =
          ((point.x - a.x) * (b.x - a.x) + (point.y - a.y) * (b.y - a.y)) /
            ((b.x - a.x) * (b.x - a.x) + (b.y - a.y) * (b.y - a.y)) := by
        rw [LineSegment.get_parameter]
        exact if_neg hdeg
      rcases lt_trichotomy (seg.get_parameter point) 0 with ht | ht | ht
      · -- parameter clamps to 0: closest is the start vertex
        left
        have hclosest : seg.get_closest_point point = a := by
          rw [LineSegment.get_closest_point]
          rw [max_eq_left (le_trans (min_le_right _ _) (le_of_lt ht))]
          simp [Point2D.add]
        rw [LineSegment.get_distance_to_point, hclosest] at hdist
        have hc := coord_abs_le_distance point a
        constructor
        · calc |a.x - point.x| = |point.x - a.x| := abs_sub_comm _ _
            _ ≤ point.distance_to a := hc.1
            _ < Polygon.TOLERANCE := hdist
        · calc |a.y - point.y| = |point.y - a.y| := abs_sub_comm _ _
            _ ≤ point.distance_to a := hc.2
            _ < Polygon.TOLERANCE := hdist
      · -- parameter exactly 0: the segment contains the point
        right; right
        exact ⟨le_of_eq ht.symm, by rw [ht]; norm_num, hdist⟩
      · by_cases ht1 : seg.get_parameter point ≤ 1
        · right; right
          exact ⟨le_of_lt ht, ht1, hdist⟩
        · -- parameter clamps to 1: closest is the end vertex
          right; left
          have hclosest : seg.get_closest_point point = b := by
            rw [LineSegment.get_closest_point]
            rw [min_eq_left (le_of_lt (not_le.mp ht1))]
            rw [max_eq_right (by norm_num)]
            rw [Point2D.add]
            conv_rhs => rw [show b = Point2D.mk b.x b.y from rfl]
            rw [Point2D.mk.injEq]
            constructor
            · simp only
              ring
            · simp only
              ring
          rw [LineSegment.get_distance_to_point, hclosest] at hdist
          have hc := coord_abs_le_distance point b
          constructor
          · calc |b.x - point.x| = |point.x - b.x| := abs_sub_comm _ _
              _ ≤ point.distance_to b := hc.1
              _ < Polygon.TOLERANCE := hdist
          · calc |b.y - point.y| = |point.y - b.y| := abs_sub_comm _ _
              _ ≤ point.distance_to b := hc.2
              _ < Polygon.TOLERANCE := hdist

/-- Witness for C5: the midpoint of the bottom edge of the unit square is
within tolerance (at distance 0) of that edge, so it is contained. -/
theorem C5_contains_point_witness :
    Polygon.contains_point ⟨[⟨0, 0⟩, ⟨1, 0⟩, ⟨1, 1⟩, ⟨0, 1⟩]⟩ ⟨1 / 2, 0⟩ := by
  have hedge : (Polygon.mk [⟨0, 0⟩, ⟨1, 0⟩, ⟨1, 1⟩, ⟨0, 1⟩]).get_edge 0 =
      ((⟨0, 0⟩ : Point2D), (⟨1, 0⟩ : Point2D)) := by
    simp [Polygon.get_edge]
  refine (C5_contains_point_even_odd_with_boundary ⟨[⟨0, 0⟩, ⟨1, 0⟩, ⟨1, 1⟩, ⟨0, 1⟩]⟩
    ⟨1 / 2, 0⟩).2 0 (by norm_num) ?_
  rw [hedge]
  rw [LineSegment.get_distance_to_point, LineSegment.get_closest_point,
    LineSegment.get_parameter]
  simp only
  rw [if_neg (by norm_num)]
  rw [show ((1 / 2 : ℝ) - 0) * (1 - 0) + (0 - 0) * (0 - 0) = 1 / 2 by norm_num,
    show ((1 : ℝ) - 0) * (1 - 0) + (0 - 0) * (0 - 0) = 1 by norm_num]
  rw [show (1 : ℝ) / 2 / 1 = 1 / 2 by norm_num]
  rw [min_eq_right (by norm_num : (1 / 2 : ℝ) ≤ 1), max_eq_right (by norm_num : (0 : ℝ) ≤ 1 / 2)]
  rw [Point2D.add, Point2D.distance_to]
  simp only
  rw [show ((1 / 2 : ℝ) - (0 + 1 / 2 * (1 - 0))) * (1 / 2 - (0 + 1 / 2 * (1 - 0))) +
    ((0 : ℝ) - (0 + 1 / 2 * (0 - 0))) * (0 - (0 + 1 / 2 * (0 - 0))) = 0 by norm_num,
    Real.sqrt_zero]
  rw [Polygon.TOLERANCE]
  norm_num

/-- Cross product helper local to Polygon.get_convex_hull in the source:
cross(o, a, b) is positive for a left turn. -/
def cross3 (o a b : Point2D) : ℝ :=
  (a.x - o.x) * (b.y - o.y) - (a.y - o.y) * (b.x - o.x)

/-- Pop loop of the Graham-scan chain: while the top two chain points and the
incoming point make a non-left turn (cross at most TOLERANCE), pop.  The
chain is kept in reversed order (head is the top of the Python list). -/
def popChain (p : Point2D) : List Point2D → List Point2D
  | b :: a :: rest =>
      if cross3 a b p ≤ Polygon.TOLERANCE then popChain p (a :: rest) else b :: a :: rest
  | l => l

/-- One chain pass of the Graham scan (lower chain on the sorted points,
upper chain on the reversed sorted points), returned in chain order. -/
def chainFold (pts : List Point2D) : List Point2D :=
  (pts.foldl (fun chain p => p :: popChain p chain) []).reverse

/-- Polygon.get_convex_hull: sort the vertices lexicographically by (x, y),
build the lower and the upper chain, drop each chain's last point and
concatenate; the Polygon constructor validation can raise ValueError. -/
def Polygon.get_convex_hull (poly : Polygon) : Except String Polygon :=
  let points := sortBy lexPointLt poly.vertices
  if points.length ≤ 2 then polygonMk points
  else
    let lower := chainFold points
    let upper := chainFold points.reverse
    polygonMk (lower.dropLast ++ upper.dropLast)

/-- Exact collinearity of a vertex list: every triple has zero cross product. -/
def collinearVertices (l : List Point2D) : Prop :=
  ∀ a ∈ l, ∀ b ∈ l, ∀ c ∈ l, cross3 a b c = 0

theorem fold_two_of_collinear {S : List Point2D}
    (H : ∀ a ∈ S, ∀ b ∈ S, ∀ c ∈ S, cross3 a b c = 0) :
    ∀ (l : List Point2D) (top first : Point2D),
      (∀ x ∈ l, x ∈ S) → top ∈ S → first ∈ S →
      ∃ x ∈ S, l.foldl (fun chain p => p :: popChain p chain) [top, first] = [x, first]
  | [], top, first => fun _ htop _ => ⟨top, htop, rfl⟩
  | p :: rest, top, first => by
      intro hl htop hfirst
      have hp : p ∈ S := hl p (List.mem_cons_self p rest)
      have hcr : cross3 first top p = 0 := H first hfirst top htop p hp
      have hstep : popChain p [top, first] = [first] := by
        rw [popChain, if_pos (by rw [hcr]; rw [Polygon.TOLERANCE]; norm_num)]
        rfl
      simp only [List.foldl_cons, hstep]
      exact fold_two_of_collinear H rest p first (fun x hx => hl x (List.mem_cons_of_mem p hx))
        hp hfirst

theorem chainFold_length_two_of_collinear {S : List Point2D}
    (H : ∀ a ∈ S, ∀ b ∈ S, ∀ c ∈ S, cross3 a b c = 0)
    (l : List Point2D) (hl : ∀ x ∈ l, x ∈ S) (hlen : 2 ≤ l.length) :
    (chainFold l).length = 2 := by
  obtain ⟨p1, p2, rest, rfl⟩ : ∃ p1 p2 rest, l = p1 :: p2 :: rest := by
    match l, hlen with
    | p1 :: p2 :: rest, _ => exact ⟨p1, p2, rest, rfl⟩
  rw [chainFold]
  simp only [List.foldl_cons]
  have h1 : popChain p1 [] = [] := rfl
  have h2 : popChain p2 [p1] = [p1] := rfl
  rw [h1, h2]
  obtain ⟨x, _, hx⟩ := fold_two_of_collinear H rest p2 p1
    (fun y hy => hl y (by simp [hy])) (hl p2 (by simp)) (hl p1 (by simp))
  rw [hx]
  rfl

/-- C9: get_convex_hull on a polygon whose vertices are all collinear raises
ValueError (the chain construction collapses to two points and the Polygon
constructor rejects fewer than 3 vertices); conversely any successfully
returned hull has at least 3 vertices. -/
theorem C9_convex_hull_collinear_raises (poly : Polygon)
    (hlen : 3 ≤ poly.vertices.length) :
    (collinearVertices poly.vertices → ∃ e, poly.get_convex_hull = Except.error e) ∧
    (∀ hull : Polygon, poly.get_convex_hull = Except.ok hull → 3 ≤ hull.vertices.length) := by
  have hsortlen : (sortBy lexPointLt poly.vertices).length = poly.vertices.length :=
    (sortBy_perm lexPointLt poly.vertices).length_eq
  constructor
  · intro hcol
    have H : ∀ a ∈ sortBy lexPointLt poly.vertices, ∀ b ∈ sortBy lexPointLt poly.vertices,
        ∀ c ∈ sortBy lexPointLt poly.vertices, cross3 a b c = 0 := by
      intro a ha b hb c hc
      exact hcol a ((sortBy_perm lexPointLt poly.vertices).mem_iff.mp ha)
        b ((sortBy_perm lexPointLt poly.vertices).mem_iff.mp hb)
        c ((sortBy_perm lexPointLt poly.vertices).mem_iff.mp hc)
    rw [Polygon.get_convex_hull]
    rw [if_neg (by rw [hsortlen]; omega)]
    have hlow : (chainFold (sortBy lexPointLt poly.vertices)).length = 2 :=
      chainFold_length_two_of_collinear H _ (fun x hx => hx) (by rw [hsortlen]; omega)
    have hup : (chainFold (sortBy lexPointLt poly.vertices).reverse).length = 2 :=
      chainFold_length_two_of_collinear H _ (fun x hx => List.mem_reverse.mp hx)
        (by rw [List.length_reverse, hsortlen]; omega)
    rw [polygonMk, if_pos]
    · exact ⟨_, rfl⟩
    · rw [List.length_append]
      rw [List.length_dropLast, List.length_dropLast, hlow, hup]
      omega
  · intro hull hok
    rw [Polygon.get_convex_hull] at hok
    by_cases hle : (sortBy lexPointLt poly.vertices).length ≤ 2
    · rw [if_pos hle] at hok
      rw [polygonMk] at hok
      rw [if_pos (by omega)] at hok
      exact absurd hok (by simp)
    · rw [if_neg hle] at hok
      rw [polygonMk] at hok
      by_cases hsh : ((chainFold (sortBy lexPointLt poly.vertices)).dropLast ++
          (chainFold (sortBy lexPointLt poly.vertices).reverse).dropLast).length < 3
      · rw [if_pos hsh] at hok
        exact absurd hok (by simp)
      · rw [if_neg hsh] at hok
        have := Except.ok.inj hok
        rw [← this]
        exact not_lt.mp hsh

/-- Witness for C9: the collinear triangle (0,0), (1,1), (2,2) makes
get_convex_hull raise, and the hypotheses of the theorem hold for it. -/
theorem C9_convex_hull_collinear_witness :
    ∃ e, Polygon.get_convex_hull ⟨[⟨0, 0⟩, ⟨1, 1⟩, ⟨2, 2⟩]⟩ = Except.error e := by
  refine (C9_convex_hull_collinear_raises ⟨[⟨0, 0⟩, ⟨1, 1⟩, ⟨2, 2⟩]⟩ (by simp)).1 ?_
  intro a ha b hb c hc
  simp only [List.mem_cons, List.not_mem_nil, or_false] at ha hb hc
  rcases ha with rfl | rfl | rfl <;> rcases hb with rfl | rfl | rfl <;>
    rcases hc with rfl | rfl | rfl <;> norm_num [cross3]

/-- LineSegment.length: Euclidean distance between the endpoints. -/
def LineSegment.length (s : LineSegment) : ℝ :=
  s.start.distance_to s.endp

theorem lsi_some_spec (s1 s2 : LineSegment) (tol : ℝ) (p : Point2D) (htol : 0 < tol)
    (h : line_segment_intersection s1 s2 tol = some p) :
    ∃ t s : ℝ, (-tol ≤ t ∧ t ≤ 1 + tol) ∧ (-tol ≤ s ∧ s ≤ 1 + tol) ∧
      p = ⟨s1.start.x + t * (s1.endp.x - s1.start.x),
           s1.start.y + t * (s1.endp.y - s1.start.y)⟩ ∧
      p = ⟨s2.start.x + s * (s2.endp.x - s2.start.x),
           s2.start.y + s * (s2.endp.y - s2.start.y)⟩ := by
  obtain ⟨⟨x1, y1⟩, ⟨x2, y2⟩⟩ := s1
  obtain ⟨⟨x3, y3⟩, ⟨x4, y4⟩⟩ := s2
  simp only [line_segment_intersection] at h ⊢
  by_cases hpar : |(x1 - x2) * (y3 - y4) - (y1 - y2) * (x3 - x4)| < tol
  · rw [if_pos hpar] at h
    exact absurd h (by simp)
  · rw [if_neg hpar] at h
    have hD : (x1 - x2) * (y3 - y4) - (y1 - y2) * (x3 - x4) ≠ 0 := by
      intro h0
      rw [h0] at hpar
      simp at hpar
      linarith
    by_cases hcond : -tol ≤ ((x1 - x3) * (y3 - y4) - (y1 - y3) * (x3 - x4)) /
          ((x1 - x2) * (y3 - y4) - (y1 - y2) * (x3 - x4)) ∧
        ((x1 - x3) * (y3 - y4) - (y1 - y3) * (x3 - x4)) /
          ((x1 - x2) * (y3 - y4) - (y1 - y2) * (x3 - x4)) ≤ 1 + tol ∧
        -tol ≤ ((x1 - x3) * (y1 - y2) - (y1 - y3) * (x1 - x2)) /
          ((x1 - x2) * (y3 - y4) - (y1 - y2) * (x3 - x4)) ∧
        ((x1 - x3) * (y1 - y2) - (y1 - y3) * (x1 - x2)) /
          ((x1 - x2) * (y3 - y4) - (y1 - y2) * (x3 - x4)) ≤ 1 + tol
    · rw [if_pos hcond] at h
      obtain ⟨hc1, hc2, hc3, hc4⟩ := hcond
      refine ⟨_, _, ⟨hc1, hc2⟩, ⟨hc3, hc4⟩, (Option.some.inj h).symm, ?_⟩
      rw [← Option.some.inj h]
      have hT := div_mul_cancel₀ ((x1 - x3) * (y3 - y4) - (y1 - y3) * (x3 - x4)) hD
      have hS := div_mul_cancel₀ ((x1 - x3) * (y1 - y2) - (y1 - y3) * (x1 - x2)) hD
      rw [Point2D.mk.injEq]
      constructor
      · apply mul_right_cancel₀ hD
        linear_combination (x2 - x1) * hT - (x4 - x3) * hS
      · apply mul_right_cancel₀ hD
        linear_combination (y2 - y1) * hT - (y4 - y3) * hS
    · rw [if_neg hcond] at h
      exact absurd h (by simp)

theorem clamp_slop_bound (seg : LineSegment) (p : Point2D) (t tol : ℝ) (htol : 0 < tol)
    (hnd : 1 / 10 ^ 15 ≤ (seg.endp.x - seg.start.x) ^ 2 + (seg.endp.y - seg.start.y) ^ 2)
    (ht0 : -tol ≤ t) (ht1 : t ≤ 1 + tol)
    (hp : p = ⟨seg.start.x + t * (seg.endp.x - seg.start.x),
               seg.start.y + t * (seg.endp.y - seg.start.y)⟩) :
    p.distance_to (seg.get_closest_point p) ≤ tol * seg.length := by
  obtain ⟨⟨ax, ay⟩, ⟨ex, ey⟩⟩ := seg
  simp only at hnd hp
  subst hp
  have hlsq : 1 / 10 ^ 15 ≤ (ex - ax) * (ex - ax) + (ey - ay) * (ey - ay) := by nlinarith
  have hne : (ex - ax) * (ex - ax) + (ey - ay) * (ey - ay) ≠ 0 := by
    intro h0
    rw [h0] at hlsq
    norm_num at hlsq
  have hparam : LineSegment.get_parameter ⟨⟨ax, ay⟩, ⟨ex, ey⟩⟩
      ⟨ax + t * (ex - ax), ay + t * (ey - ay)⟩ = t := by
    rw [LineSegment.get_parameter]
    simp only
    rw [if_neg (not_lt.mpr hlsq)]
    rw [div_eq_iff hne]
    ring
  rw [LineSegment.get_closest_point, hparam]
  set σ := max 0 (min 1 t) with hσ
  rw [Point2D.add, Point2D.distance_to, LineSegment.length, Point2D.distance_to]
  simp only
  rw [show (ax + t * (ex - ax) - (ax + σ * (ex - ax))) *
        (ax + t * (ex - ax) - (ax + σ * (ex - ax))) +
      (ay + t * (ey - ay) - (ay + σ * (ey - ay))) *
        (ay + t * (ey - ay) - (ay + σ * (ey - ay))) =
      (t - σ) ^ 2 * ((ax - ex) * (ax - ex) + (ay - ey) * (ay - ey)) by ring]
  rw [Real.sqrt_mul (sq_nonneg _), Real.sqrt_sq_eq_abs]
  have hslop : |t - σ| ≤ tol := by
    rw [hσ]
    rcases le_or_lt t 0 with hc | hc
    · rw [min_eq_right (le_trans hc (by norm_num)), max_eq_left hc]
      rw [abs_of_nonpos (by linarith)]
      linarith
    · rcases le_or_lt t 1 with hc1 | hc1
      · rw [min_eq_right hc1, max_eq_right (le_of_lt hc)]
        simp [le_of_lt htol]
      · rw [min_eq_left (le_of_lt hc1), max_eq_right (by norm_num)]
        rw [abs_of_nonneg (by linarith)]
        linarith
  exact mul_le_mul_of_nonneg_right hslop (Real.sqrt_nonneg _) |>.trans_eq' rfl
    |>.trans (le_of_eq rfl) |>.trans_eq rfl |>.trans
    (mul_le_mul_of_nonneg_left (le_refl _) (le_of_lt htol)) |>.trans (le_refl _)

/-- C7 counterexample: the claim says a returned intersection point lies
within tolerance of the closest point on each segment.  With tolerance 1/10,
the long segment (0,0)-(1000,0) and the vertical segment through x = 1050,
the solver accepts parameter 21/20 (within the 1 + tolerance slop) and
returns (1050, 0), which is at distance 50 from the closest point (1000, 0)
of the first segment. -/
theorem C7_segment_intersection_counterexample :
    line_segment_intersection ⟨⟨0, 0⟩, ⟨1000, 0⟩⟩ ⟨⟨1050, -1⟩, ⟨1050, 1⟩⟩ (1 / 10) =
      some ⟨1050, 0⟩ ∧
    (Point2D.mk 1050 0).distance_to
      ((LineSegment.mk ⟨0, 0⟩ ⟨1000, 0⟩).get_closest_point ⟨1050, 0⟩) > 1 / 10 := by
  constructor
  · simp only [line_segment_intersection]
    rw [if_neg (by
      rw [show ((0 : ℝ) - 1000) * (-1 - 1) - (0 - 0) * (1050 - 1050) = 2000 by norm_num]
      rw [abs_of_nonneg (by norm_num)]
      norm_num)]
    rw [if_pos (by constructor <;> [norm_num; constructor] <;>
      [skip; constructor] <;> norm_num)]
    rw [Option.some.injEq, Point2D.mk.injEq]
    constructor <;> norm_num
  · have hclosest : (LineSegment.mk ⟨0, 0⟩ ⟨1000, 0⟩).get_closest_point ⟨1050, 0⟩ =
        ⟨1000, 0⟩ := by
      rw [LineSegment.get_closest_point, LineSegment.get_parameter]
      simp only
      rw [if_neg (by norm_num)]
      rw [show ((1050 : ℝ) - 0) * (1000 - 0) + (0 - 0) * (0 - 0) = 1050000 by norm_num,
        show ((1000 : ℝ) - 0) * (1000 - 0) + (0 - 0) * (0 - 0) = 1000000 by norm_num]
      rw [min_eq_left (by norm_num), max_eq_right (by norm_num)]
      rw [Point2D.add, Point2D.mk.injEq]
      constructor <;> norm_num
    rw [hclosest, Point2D.distance_to]
    simp only
    rw [show ((1050 : ℝ) - 1000) * (1050 - 1000) + (0 - 0) * (0 - 0) = 50 ^ 2 by norm_num]
    rw [Real.sqrt_sq (by norm_num)]
    norm_num

/-- C7 (amended): segment-segment intersection is exactly symmetric in its
arguments; a returned point lies within tolerance times the segment's length
of the closest point on each non-degenerate segment (squared length at least
1e-15), not within the bare tolerance (see the counterexample). -/
theorem C7_segment_intersection_symmetric_amended (s1 s2 : LineSegment) (tolerance : ℝ)
    (htol : 0 < tolerance) :
    line_segment_intersection s1 s2 tolerance = line_segment_intersection s2 s1 tolerance ∧
    ∀ p : Point2D, line_segment_intersection s1 s2 tolerance = some p →
      (1 / 10 ^ 15 ≤ (s1.endp.x - s1.start.x) ^ 2 + (s1.endp.y - s1.start.y) ^ 2 →
        p.distance_to (s1.get_closest_point p) ≤ tolerance * s1.length) ∧
      (1 / 10 ^ 15 ≤ (s2.endp.x - s2.start.x) ^ 2 + (s2.endp.y - s2.start.y) ^ 2 →
        p.distance_to (s2.get_closest_point p) ≤ tolerance * s2.length) := by
  constructor
  · obtain ⟨⟨x1, y1⟩, ⟨x2, y2⟩⟩ := s1
    obtain ⟨⟨x3, y3⟩, ⟨x4, y4⟩⟩ := s2
    simp only [line_segment_intersection]
    by_cases hpar : |(x1 - x2) * (y3 - y4) - (y1 - y2) * (x3 - x4)| < tolerance
    · rw [if_pos hpar, if_pos (by
        rw [show (x3 - x4) * (y1 - y2) - (y3 - y4) * (x1 - x2) =
          -((x1 - x2) * (y3 - y4) - (y1 - y2) * (x3 - x4)) by ring, abs_neg]
        exact hpar)]
    · have hD : (x1 - x2) * (y3 - y4) - (y1 - y2) * (x3 - x4) ≠ 0 := by
        intro h0
        rw [h0] at hpar
        simp at hpar
        linarith
      have hpar2 : ¬ |(x3 - x4) * (y1 - y2) - (y3 - y4) * (x1 - x2)| < tolerance := by
        rw [show (x3 - x4) * (y1 - y2) - (y3 - y4) * (x1 - x2) =
          -((x1 - x2) * (y3 - y4) - (y1 - y2) * (x3 - x4)) by ring, abs_neg]
        exact hpar
      rw [if_neg hpar]
      have ht2 : ((x3 - x1) * (y1 - y2) - (y3 - y1) * (x1 - x2)) /
          ((x3 - x4) * (y1 - y2) - (y3 - y4) * (x1 - x2)) =
          ((x1 - x3) * (y1 - y2) - (y1 - y3) * (x1 - x2)) /
          ((x1 - x2) * (y3 - y4) - (y1 - y2) * (x3 - x4)) := by
        rw [show (x3 - x1) * (y1 - y2) - (y3 - y1) * (x1 - x2) =
          -((x1 - x3) * (y1 - y2) - (y1 - y3) * (x1 - x2)) by ring,
          show (x3 - x4) * (y1 - y2) - (y3 - y4) * (x1 - x2) =
          -((x1 - x2) * (y3 - y4) - (y1 - y2) * (x3 - x4)) by ring,
          neg_div_neg_eq]
      have hs2 : ((x3 - x1) * (y3 - y4) - (y3 - y1) * (x3 - x4)) /
          ((x3 - x4) * (y1 - y2) - (y3 - y4) * (x1 - x2)) =
          ((x1 - x3) * (y3 - y4) - (y1 - y3) * (x3 - x4)) /
          ((x1 - x2) * (y3 - y4) - (y1 - y2) * (x3 - x4)) := by
        rw [show (x3 - x1) * (y3 - y4) - (y3 - y1) * (x3 - x4) =
          -((x1 - x3) * (y3 - y4) - (y1 - y3) * (x3 - x4)) by ring,
          show (x3 - x4) * (y1 - y2) - (y3 - y4) * (x1 - x2) =
          -((x1 - x2) * (y3 - y4) - (y1 - y2) * (x3 - x4)) by ring,
          neg_div_neg_eq]
      by_cases hcond : -tolerance ≤ ((x1 - x3) * (y3 - y4) - (y1 - y3) * (x3 - x4)) /
            ((x1 - x2) * (y3 - y4) - (y1 - y2) * (x3 - x4)) ∧
          ((x1 - x3) * (y3 - y4) - (y1 - y3) * (x3 - x4)) /
            ((x1 - x2) * (y3 - y4) - (y1 - y2) * (x3 - x4)) ≤ 1 + tolerance ∧
          -tolerance ≤ ((x1 - x3) * (y1 - y2) - (y1 - y3) * (x1 - x2)) /
            ((x1 - x2) * (y3 - y4) - (y1 - y2) * (x3 - x4)) ∧
          ((x1 - x3) * (y1 - y2) - (y1 - y3) * (x1 - x2)) /
            ((x1 - x2) * (y3 - y4) - (y1 - y2) * (x3 - x4)) ≤ 1 + tolerance
      · obtain ⟨hc1, hc2, hc3, hc4⟩ := hcond
        rw [if_pos ⟨hc1, hc2, hc3, hc4⟩, if_neg hpar2, ht2, hs2,
          if_pos ⟨hc3, hc4, hc1, hc2⟩]
        have hT := div_mul_cancel₀ ((x1 - x3) * (y3 - y4) - (y1 - y3) * (x3 - x4)) hD
        have hS := div_mul_cancel₀ ((x1 - x3) * (y1 - y2) - (y1 - y3) * (x1 - x2)) hD
        rw [Option.some.injEq, Point2D.mk.injEq]
        constructor
        · apply mul_right_cancel₀ hD
          linear_combination (x2 - x1) * hT - (x4 - x3) * hS
        · apply mul_right_cancel₀ hD
          linear_combination (y2 - y1) * hT - (y4 - y3) * hS
      · rw [if_neg hcond, if_neg hpar2, ht2, hs2, if_neg (by tauto)]
  · intro p hp
    obtain ⟨t, s, ⟨ht0, ht1⟩, ⟨hs0, hs1⟩, hpt, hps⟩ := lsi_some_spec s1 s2 tolerance p htol hp
    exact ⟨fun hnd => clamp_slop_bound s1 p t tolerance htol hnd ht0 ht1 hpt,
      fun hnd => clamp_slop_bound s2 p s tolerance htol hnd hs0 hs1 hps⟩

/-- Witness for C7: the crossing diagonals of a unit square meet at (1/2, 1/2)
and the bound holds there with tolerance 1/10. -/
theorem C7_segment_intersection_witness :
    line_segment_intersection ⟨⟨0, 0⟩, ⟨1, 1⟩⟩ ⟨⟨0, 1⟩, ⟨1, 0⟩⟩ (1 / 10) =
      line_segment_intersection ⟨⟨0, 1⟩, ⟨1, 0⟩⟩ ⟨⟨0, 0⟩, ⟨1, 1⟩⟩ (1 / 10) ∧
    ∀ p : Point2D,
      line_segment_intersection ⟨⟨0, 0⟩, ⟨1, 1⟩⟩ ⟨⟨0, 1⟩, ⟨1, 0⟩⟩ (1 / 10) = some p →
      p.distance_to ((⟨⟨0, 0⟩, ⟨1, 1⟩⟩ : LineSegment).get_closest_point p) ≤
        (1 / 10) * (⟨⟨0, 0⟩, ⟨1, 1⟩⟩ : LineSegment).length := by
  constructor
  · exact (C7_segment_intersection_symmetric_amended ⟨⟨0, 0⟩, ⟨1, 1⟩⟩ ⟨⟨0, 1⟩, ⟨1, 0⟩⟩
      (1 / 10) (by norm_num)).1
  · intro p hp
    exact ((C7_segment_intersection_symmetric_amended ⟨⟨0, 0⟩, ⟨1, 1⟩⟩ ⟨⟨0, 1⟩, ⟨1, 0⟩⟩
      (1 / 10) (by norm_num)).2 p hp).1 (by norm_num)

/-- Python's round: round half to even (banker's rounding). -/
def pyRound (x : ℝ) : ℤ :=
  if Int.fract x < 1 / 2 then ⌊x⌋
  else if 1 / 2 < Int.fract x then ⌊x⌋ + 1
  else if Even ⌊x⌋ then ⌊x⌋ else ⌊x⌋ + 1

/-- Deduplication key of line_polygon_intersection_points: coordinates rounded
at the tolerance scale. -/
def roundKey (p : Point2D) (tolerance : ℝ) : ℝ × ℝ :=
  ((pyRound (p.x / tolerance) : ℝ) * tolerance, (pyRound (p.y / tolerance) : ℝ) * tolerance)

/-- Parameter of a point along a line as computed by the sort key of
line_polygon_intersection_points. -/
def tParam (line : Line) (p : Point2D) : ℝ :=
  ((p.x - line.point.x) * line.direction.x + (p.y - line.point.y) * line.direction.y) /
    line.direction.dot line.direction

/-- line_segment_intersection as dynamically invoked by
_line_segment_intersection on a polygon edge: the edge is a plain tuple
(Polygon.get_edges returns tuples, not LineSegment objects), so the attribute
access s2.start in the body raises AttributeError before anything else
happens.  The static LineSegment-typed behaviour is line_segment_intersection
above. -/
def line_segment_intersection_tupleArg (_s1 : LineSegment) (_s2 : Point2D × Point2D)
    (_tolerance : ℝ) : Except String (Option Point2D) :=
  Except.error ("AttributeError: tuple object has no attribute start")

/-- Private helper _line_segment_intersection from utils/intersection_ops.py:
extend the line to a segment of 1000 direction lengths from its anchor and
delegate; the edge argument it receives from line_polygon_intersection_points
is a tuple. -/
def line_to_segment_then_intersect (line : Line) (segment : Point2D × Point2D)
    (tolerance : ℝ) : Except String (Option Point2D) :=
  let p1 := line.point
  let p2 := Point2D.mk (p1.x + line.direction.x * 1000) (p1.y + line.direction.y * 1000)
  line_segment_intersection_tupleArg ⟨p1, p2⟩ segment tolerance

/-- line_polygon_intersection_points from utils/intersection_ops.py: fold over
the polygon edges collecting solver hits deduplicated by the rounding key,
then sort by the parameter along the line when the squared direction length
exceeds the tolerance. -/
def line_polygon_intersection_points (line : Line) (polygon : Polygon) (tolerance : ℝ) :
    Except String (List Point2D) := do
  let edges := polygon.get_edges
  let acc ← edges.foldlM (fun (acc : List Point2D × List (ℝ × ℝ)) edge => do
      match ← line_to_segment_then_intersect line edge tolerance with
      | none => pure acc
      | some point =>
          let key := roundKey point tolerance
          if key ∈ acc.2 then pure acc else pure (acc.1 ++ [point], key :: acc.2)) ([], [])
  let intersections := acc.1
  if line.direction.dot line.direction > tolerance then
    pure (sortBy (fun p q : Point2D => tParam line p < tParam line q) intersections)
  else pure intersections

/-- C3 (code bug): line_polygon_intersection_points never returns the
documented deduplicated sorted point list: Polygon.get_edges produces plain
tuples, and the first loop iteration hands such a tuple to
line_segment_intersection, whose attribute access raises AttributeError, so
the call raises for every polygon (a polygon always has edges). -/
theorem C3_line_polygon_intersection_always_raises (line : Line) (polygon : Polygon)
    (tolerance : ℝ) (hne : polygon.vertices ≠ []) :
    line_polygon_intersection_points line polygon tolerance =
      Except.error ("AttributeError: tuple object has no attribute start") := by
  have hlen : polygon.get_edges.length = polygon.vertices.length := by
    simp [Polygon.get_edges]
  have hnil : polygon.get_edges ≠ [] := by
    intro h0
    rw [h0] at hlen
    exact hne (List.length_eq_zero.mp hlen.symm)
  obtain ⟨e, es, hE⟩ := List.exists_cons_of_ne_nil hnil
  rw [line_polygon_intersection_points, hE]
  rfl

/-- Witness for C3 at a concrete failing input: the x-axis line against the
unit square. -/
theorem C3_line_polygon_intersection_witness :
    line_polygon_intersection_points ⟨⟨0, 0⟩, ⟨1, 0⟩⟩
        ⟨[⟨0, 0⟩, ⟨1, 0⟩, ⟨1, 1⟩, ⟨0, 1⟩]⟩ (1 / 10 ^ 9) =
      Except.error ("AttributeError: tuple object has no attribute start") :=
  C3_line_polygon_intersection_always_raises ⟨⟨0, 0⟩, ⟨1, 0⟩⟩
    ⟨[⟨0, 0⟩, ⟨1, 0⟩, ⟨1, 1⟩, ⟨0, 1⟩]⟩ (1 / 10 ^ 9) (by simp)

/-- Rectangle from planar_geometry/surface/rectangle.py: four vertices. -/
structure Rectangle where
  vertices : List Point2D

/-- Rectangle.get_bounds: axis-aligned bounding box (min/max over vertices);
the empty case is unreachable because the constructor enforces 4 vertices. -/
def Rectangle.get_bounds (r : Rectangle) : ℝ × ℝ × ℝ × ℝ :=
  match r.vertices with
  | [] => (0, 0, 0, 0)
  | v :: vs =>
      (vs.foldl (fun m p => min m p.x) v.x, vs.foldl (fun m p => min m p.y) v.y,
        vs.foldl (fun m p => max m p.x) v.x, vs.foldl (fun m p => max m p.y) v.y)

/-- Ellipse from planar_geometry/surface/ellipse.py. -/
structure Ellipse where
  center : Point2D
  semi_major_axis : ℝ
  semi_minor_axis : ℝ
  rotation_angle : ℝ

/-- Private helper _ellipse_nearest_point from utils/projection_ops.py:
bounded angular parameter sweep over 360 samples keeping the closest sampled
boundary point; the initial infinite best distance is modelled by an Option
accumulator (the first sample always wins), and the unreachable empty-loop
fallback returns a dummy pair. -/
def ellipse_nearest_point_sweep (point : Point2D) (ellipse : Ellipse) (_tolerance : ℝ) :
    Point2D × ℝ :=
  let center := ellipse.center
  let a := ellipse.semi_major_axis
  let b := ellipse.semi_minor_axis
  let angle_rad := ellipse.rotation_angle * (Real.pi / 180)
  let best := (List.range 360).foldl
    (fun (best : Option (Point2D × ℝ)) i =>
      let t := (i : ℝ) * (Real.pi / 180)
      let x := center.x + a * Real.cos t * Real.cos angle_rad -
        b * Real.sin t * Real.sin angle_rad
      let y := center.y + a * Real.cos t * Real.sin angle_rad +
        b * Real.sin t * Real.cos angle_rad
      let ellipse_point := Point2D.mk x y
      let distance := point.distance_to ellipse_point
      match best with
      | none => some (ellipse_point, distance)
      | some (bp, bd) => if distance < bd then some (ellipse_point, distance) else some (bp, bd))
    none
  match best with
  | some r => r
  | none => (⟨0, 0⟩, 0)

/-- Closed sum of the dynamically dispatched geometry kinds that
nearest_point_on_geometry in utils/projection_ops.py inspects. -/
inductive Geometry where
  | point : Point2D → Geometry
  | line : Line → Geometry
  | segment : LineSegment → Geometry
  | circle : Circle → Geometry
  | rectangle : Rectangle → Geometry
  | polygon : Polygon → Geometry
  | ellipse : Ellipse → Geometry

/-- nearest_point_on_geometry from utils/projection_ops.py: dispatch on the
geometry argument in source order (Line, LineSegment, Circle, Rectangle,
Polygon, Ellipse) and raise TypeError for anything else, including Point2D.
Branches that read coordinates of the query argument raise AttributeError
when it is not a Point2D (the Python code is called with arbitrary first
arguments by minimum_distance).  The Polygon branch recursively queries each
edge, but edges are plain tuples, so a nonempty edge list raises the tuple
TypeError on its first iteration. -/
def nearest_point_on_geometry (p : Geometry) (geometry : Geometry) (tolerance : ℝ) :
    Except String (Point2D × ℝ) :=
  match geometry with
  | Geometry.line l =>
      match p with
      | Geometry.point q =>
          let closest := l.get_closest_point q
          Except.ok (closest, q.distance_to closest)
      | _ => Except.error ("AttributeError: object has no attribute x")
  | Geometry.segment s =>
      match p with
      | Geometry.point q =>
          let closest := s.get_closest_point q
          Except.ok (closest, q.distance_to closest)
      | _ => Except.error ("AttributeError: object has no attribute x")
  | Geometry.circle c =>
      match p with
      | Geometry.point q =>
          let dx := q.x - c.center.x
          let dy := q.y - c.center.y
          let dist_to_center := Real.sqrt (dx * dx + dy * dy)
          if dist_to_center < tolerance then
            Except.ok (⟨c.center.x + c.radius, c.center.y⟩, c.radius)
          else
            let factor := c.radius / dist_to_center
            let closest := Point2D.mk (c.center.x + dx * factor) (c.center.y + dy * factor)
            Except.ok (closest, max 0 (q.distance_to c.center - c.radius))
      | _ => Except.error ("AttributeError: object has no attribute x")
  | Geometry.rectangle r =>
      match p with
      | Geometry.point q =>
          let bounds := r.get_bounds
          let closest := Point2D.mk (max bounds.1 (min q.x bounds.2.2.1))
            (max bounds.2.1 (min q.y bounds.2.2.2))
          Except.ok (closest, q.distance_to closest)
      | _ => Except.error ("AttributeError: object has no attribute x")
  | Geometry.polygon poly =>
      match poly.get_edges with
      | [] => Except.ok (⟨0, 0⟩, 0)
      | _ :: _ => Except.error ("TypeError: unsupported geometry type tuple")
  | Geometry.ellipse e =>
      match p with
      | Geometry.point q => Except.ok (ellipse_nearest_point_sweep q e tolerance)
      | _ => Except.error ("AttributeError: object has no attribute x")
  | Geometry.point _ => Except.error ("TypeError: unsupported geometry type Point2D")

/-- minimum_distance from utils/query_ops.py: query the nearest point in both
argument orders and return the smaller distance. -/
def minimum_distance (geom1 geom2 : Geometry) (tolerance : ℝ) : Except String ℝ := do
  let r1 ← nearest_point_on_geometry geom1 geom2 tolerance
  let r2 ← nearest_point_on_geometry geom2 geom1 tolerance
  pure (min r1.2 r2.2)

/-- within_distance from utils/query_ops.py: compare the minimum distance
against the threshold plus tolerance. -/
def within_distance (geom1 geom2 : Geometry) (distance tolerance : ℝ) :
    Except String Prop := do
  let min_dist ← minimum_distance geom1 geom2 tolerance
  pure (min_dist ≤ distance + tolerance)

/-- C10: nearest_point_on_geometry raises TypeError whenever its geometry
argument is a Point2D, and minimum_distance always queries both argument
orders, so whenever either argument of minimum_distance (and hence of
within_distance) is a Point2D the call raises instead of returning a
distance. -/
theorem C10_minimum_distance_point_raises (g : Geometry) (q : Point2D)
    (d tolerance : ℝ) :
    (∀ p : Geometry, nearest_point_on_geometry p (Geometry.point q) tolerance =
      Except.error ("TypeError: unsupported geometry type Point2D")) ∧
    (∃ e, minimum_distance (Geometry.point q) g tolerance = Except.error e) ∧
    (∃ e, minimum_distance g (Geometry.point q) tolerance = Except.error e) ∧
    (∃ e, within_distance (Geometry.point q) g d tolerance = Except.error e) ∧
    (∃ e, within_distance g (Geometry.point q) d tolerance = Except.error e) := by
  have h1 : ∀ p : Geometry, nearest_point_on_geometry p (Geometry.point q) tolerance =
      Except.error ("TypeError: unsupported geometry type Point2D") := fun p => rfl
  have h2 : ∃ e, minimum_distance (Geometry.point q) g tolerance = Except.error e := by
    rcases hr : nearest_point_on_geometry (Geometry.point q) g tolerance with e | v
    · exact ⟨e, by rw [minimum_distance, hr]; rfl⟩
    · exact ⟨_, by rw [minimum_distance, hr, h1 g]; rfl⟩
  have h3 : ∃ e, minimum_distance g (Geometry.point q) tolerance = Except.error e :=
    ⟨_, by rw [minimum_distance, h1 g]; rfl⟩
  refine ⟨h1, h2, h3, ?_, ?_⟩
  · obtain ⟨e, he⟩ := h2
    exact ⟨e, by rw [within_distance, he]; rfl⟩
  · obtain ⟨e, he⟩ := h3
    exact ⟨e, by rw [within_distance, he]; rfl⟩

end PlanarGeometry

namespace PlanarGeometry

/- ### C6 chunk 1: algebraic facts about cross3 and the lexicographic order -/

theorem tol_pos : (0 : ℝ) < Polygon.TOLERANCE := by
  rw [Polygon.TOLERANCE]; norm_num

theorem cross3_cyclic (a b c : Point2D) : cross3 a b c = cross3 b c a := by
  simp only [cross3]; ring

theorem cross3_swap (a b c : Point2D) : cross3 a b c = -cross3 a c b := by
  simp only [cross3]; ring

theorem cross3_swap01 (a b c : Point2D) : cross3 a b c = -cross3 b a c := by
  simp only [cross3]; ring

theorem cross3_self_right (a b : Point2D) : cross3 a b b = 0 := by
  simp only [cross3]; ring

theorem cross3_self_left (a b : Point2D) : cross3 a a b = 0 := by
  simp only [cross3]; ring

theorem cross3_self_outer (a b : Point2D) : cross3 a b a = 0 := by
  simp only [cross3]; ring

theorem cross3_vert_nonpos {a b p : Point2D} (hx : a.x = b.x) (hy : a.y ≤ b.y)
    (hp : b.x ≤ p.x) : cross3 a b p ≤ 0 := by
  have h : cross3 a b p = -((b.y - a.y) * (p.x - a.x)) := by
    simp only [cross3]; rw [hx]; ring
  rw [h]
  have h1 : (0 : ℝ) ≤ b.y - a.y := by linarith
  have h2 : (0 : ℝ) ≤ p.x - a.x := by rw [hx]; linarith
  nlinarith

theorem cross3_vert_pos {a b p : Point2D} (hab : a.x < b.x) (hx : b.x = p.x)
    (hy : b.y < p.y) : 0 < cross3 a b p := by
  have h : cross3 a b p = (b.x - a.x) * (p.y - b.y) := by
    simp only [cross3]; rw [← hx]; ring
  rw [h]
  exact mul_pos (by linarith) (by linarith)

theorem cross3_comp1 {a b w p : Point2D} (hab : a.x ≤ b.x) (hbw : b.x < w.x)
    (hwp : w.x ≤ p.x) (h1 : Polygon.TOLERANCE < cross3 a b w)
    (h2 : Polygon.TOLERANCE < cross3 b w p) :
    Polygon.TOLERANCE < cross3 a b p := by
  have key : cross3 a b p * (w.x - b.x) =
      cross3 a b w * (p.x - b.x) + cross3 b w p * (b.x - a.x) := by
    simp only [cross3]; ring
  have hwb : (0 : ℝ) < w.x - b.x := by linarith
  have hpb : (0 : ℝ) < p.x - b.x := by linarith
  have e1 : Polygon.TOLERANCE * (p.x - b.x) < cross3 a b w * (p.x - b.x) :=
    mul_lt_mul_of_pos_right h1 hpb
  have e2 : (0 : ℝ) ≤ cross3 b w p * (b.x - a.x) :=
    mul_nonneg (le_of_lt (lt_trans tol_pos h2)) (by linarith)
  have e3 : Polygon.TOLERANCE * (w.x - b.x) ≤ Polygon.TOLERANCE * (p.x - b.x) :=
    mul_le_mul_of_nonneg_left (by linarith) (le_of_lt tol_pos)
  have : Polygon.TOLERANCE * (w.x - b.x) < cross3 a b p * (w.x - b.x) := by
    rw [key]; linarith
  exact lt_of_mul_lt_mul_right (by linarith [this]) (le_of_lt hwb)

theorem cross3_pivotE {a w c d : Point2D} (hac : a.x < c.x) (hwc : w.x < c.x)
    (hcd : c.x ≤ d.x) (h1 : cross3 a c w < 0) (h2 : Polygon.TOLERANCE < cross3 w c d) :
    0 < cross3 a c d := by
  have key : cross3 a c d * (c.x - w.x) =
      cross3 w c d * (c.x - a.x) - cross3 a c w * (d.x - c.x) := by
    simp only [cross3]; ring
  have hcw : (0 : ℝ) < c.x - w.x := by linarith
  have e1 : (0 : ℝ) < cross3 w c d * (c.x - a.x) :=
    mul_pos (lt_trans tol_pos h2) (by linarith)
  have e2 : cross3 a c w * (d.x - c.x) ≤ 0 :=
    mul_nonpos_of_nonpos_of_nonneg (le_of_lt h1) (by linarith)
  have : (0 : ℝ) * (c.x - w.x) < cross3 a c d * (c.x - w.x) := by
    rw [key, zero_mul]; linarith
  exact lt_of_mul_lt_mul_right (by linarith [this]) (le_of_lt hcw)

theorem cross3_pivotM {a m c d : Point2D} (hac : a.x < c.x) (had : a.x < d.x)
    (ham : a.x ≤ m.x) (h1 : cross3 a c m < 0) (h2 : 0 < cross3 a c d) :
    cross3 a d m < 0 := by
  have key : cross3 a d m * (c.x - a.x) =
      cross3 a c m * (d.x - a.x) + cross3 a c d * (a.x - m.x) := by
    simp only [cross3]; ring
  have hca : (0 : ℝ) < c.x - a.x := by linarith
  have e1 : cross3 a c m * (d.x - a.x) < 0 :=
    mul_neg_of_neg_of_pos h1 (by linarith)
  have e2 : cross3 a c d * (a.x - m.x) ≤ 0 :=
    mul_nonpos_of_nonneg_of_nonpos (le_of_lt h2) (by linarith)
  have : cross3 a d m * (c.x - a.x) < 0 * (c.x - a.x) := by
    rw [key, zero_mul]; linarith
  exact lt_of_mul_lt_mul_right (by linarith [this]) (le_of_lt hca)

theorem cross3_above_edge {q1 qm l l2 u : Point2D} (hw : q1.x < qm.x)
    (hl : l.x < u.x) (hu : u.x < l2.x)
    (hup : 0 < cross3 q1 qm u) (h1 : cross3 q1 qm l ≤ 0) (h2 : cross3 q1 qm l2 ≤ 0) :
    0 < cross3 l l2 u := by
  have key : (qm.x - q1.x) * cross3 l l2 u =
      (l2.x - l.x) * cross3 q1 qm u - (l2.x - u.x) * cross3 q1 qm l -
        (u.x - l.x) * cross3 q1 qm l2 := by
    simp only [cross3]; ring
  have e1 : (0 : ℝ) < (l2.x - l.x) * cross3 q1 qm u := mul_pos (by linarith) hup
  have e2 : (l2.x - u.x) * cross3 q1 qm l ≤ 0 :=
    mul_nonpos_of_nonneg_of_nonpos (by linarith) h1
  have e3 : (u.x - l.x) * cross3 q1 qm l2 ≤ 0 :=
    mul_nonpos_of_nonneg_of_nonpos (by linarith) h2
  have hlt : (qm.x - q1.x) * 0 < (qm.x - q1.x) * cross3 l l2 u := by
    rw [key, mul_zero]; linarith
  exact lt_of_mul_lt_mul_left hlt (by linarith)

theorem cross3_tie_above {q1 qm u l2 : Point2D} (hw : q1.x < qm.x) (hx : u.x = l2.x)
    (hup : 0 < cross3 q1 qm u) (h2 : cross3 q1 qm l2 ≤ 0) : l2.y < u.y := by
  have key : cross3 q1 qm u - cross3 q1 qm l2 = (qm.x - q1.x) * (u.y - l2.y) := by
    simp only [cross3]; rw [hx]; ring
  nlinarith [key]

theorem lexPointLt_trans {p q r : Point2D} (h1 : lexPointLt p q) (h2 : lexPointLt q r) :
    lexPointLt p r := by
  rcases h1 with h1 | ⟨h1, h1'⟩ <;> rcases h2 with h2 | ⟨h2, h2'⟩
  · exact Or.inl (lt_trans h1 h2)
  · exact Or.inl (h2 ▸ h1)
  · exact Or.inl (h1 ▸ h2)
  · exact Or.inr ⟨h1.trans h2, lt_trans h1' h2'⟩

theorem lexPointLt_irrefl (p : Point2D) : ¬ lexPointLt p p := by
  intro h
  rcases h with h | ⟨_, h⟩ <;> exact lt_irrefl _ h

theorem lexPointLt_asymm {p q : Point2D} (h1 : lexPointLt p q) (h2 : lexPointLt q p) : False :=
  lexPointLt_irrefl p (lexPointLt_trans h1 h2)

theorem lexPointLt_le_asymm {p q : Point2D} (h1 : lexPointLt p q) (h2 : lexPointLe q p) :
    False := by
  rcases h1 with h1 | ⟨h1, h1'⟩ <;> rcases h2 with h2 | ⟨h2, h2'⟩ <;> linarith

theorem lexPointLe_ne_lt {p q : Point2D} (h : lexPointLe p q) (hne : p ≠ q) :
    lexPointLt p q := by
  rcases h with h | ⟨h1, h2⟩
  · exact Or.inl h
  · refine Or.inr ⟨h1, lt_of_le_of_ne h2 ?_⟩
    intro hy
    exact hne (by cases p; cases q; simp_all)

theorem lexPointLt_x_le {p q : Point2D} (h : lexPointLt p q) : p.x ≤ q.x := by
  rcases h with h | ⟨h, _⟩
  · exact le_of_lt h
  · exact le_of_eq h

theorem lexPointLe_x_le {p q : Point2D} (h : lexPointLe p q) : p.x ≤ q.x := by
  rcases h with h | ⟨h, _⟩
  · exact le_of_lt h
  · exact le_of_eq h

theorem lexPointLt_of_lt_le {p q r : Point2D} (h1 : lexPointLt p q) (h2 : lexPointLe q r) :
    lexPointLt p r := by
  rcases h1 with h1 | ⟨h1, h1'⟩ <;> rcases h2 with h2 | ⟨h2, h2'⟩
  · exact Or.inl (lt_trans h1 h2)
  · exact Or.inl (h2 ▸ h1)
  · exact Or.inl (h1 ▸ h2)
  · exact Or.inr ⟨h1.trans h2, lt_of_lt_of_le h1' h2'⟩

theorem lexPointLt_of_le_lt {p q r : Point2D} (h1 : lexPointLe p q) (h2 : lexPointLt q r) :
    lexPointLt p r := by
  rcases h1 with h1 | ⟨h1, h1'⟩ <;> rcases h2 with h2 | ⟨h2, h2'⟩
  · exact Or.inl (lt_trans h1 h2)
  · exact Or.inl (h2 ▸ h1)
  · exact Or.inl (h1 ▸ h2)
  · exact Or.inr ⟨h1.trans h2, lt_of_le_of_lt h1' h2'⟩

end PlanarGeometry

namespace PlanarGeometry

/- ### C6 chunk 2: consecutive-occurrence predicates and popChain facts -/

/-- a and b occur consecutively, in this order, in l. -/
def Adj (l : List Point2D) (a b : Point2D) : Prop :=
  ∃ s t, l = s ++ a :: b :: t

/-- o, a, b occur consecutively, in this order, in l. -/
def Triple3 (l : List Point2D) (o a b : Point2D) : Prop :=
  ∃ s t, l = s ++ o :: a :: b :: t

theorem adj_append_left {l : List Point2D} {a b : Point2D} (h : Adj l a b)
    (d : List Point2D) : Adj (d ++ l) a b := by
  obtain ⟨s, t, rfl⟩ := h
  exact ⟨d ++ s, t, by simp⟩

theorem adj_append_right {l : List Point2D} {a b : Point2D} (h : Adj l a b)
    (d : List Point2D) : Adj (l ++ d) a b := by
  obtain ⟨s, t, rfl⟩ := h
  exact ⟨s, t ++ d, by simp⟩

theorem adj_cons {l : List Point2D} {a b : Point2D} (h : Adj l a b) (x : Point2D) :
    Adj (x :: l) a b :=
  adj_append_left h [x]

theorem adj_head (a b : Point2D) (t : List Point2D) : Adj (a :: b :: t) a b :=
  ⟨[], t, rfl⟩

theorem triple3_append_left {l : List Point2D} {o a b : Point2D} (h : Triple3 l o a b)
    (d : List Point2D) : Triple3 (d ++ l) o a b := by
  obtain ⟨s, t, rfl⟩ := h
  exact ⟨d ++ s, t, by simp⟩

theorem triple3_append_right {l : List Point2D} {o a b : Point2D} (h : Triple3 l o a b)
    (d : List Point2D) : Triple3 (l ++ d) o a b := by
  obtain ⟨s, t, rfl⟩ := h
  exact ⟨s, t ++ d, by simp⟩

theorem triple3_cons {l : List Point2D} {o a b : Point2D} (h : Triple3 l o a b)
    (x : Point2D) : Triple3 (x :: l) o a b :=
  triple3_append_left h [x]

theorem triple3_head (o a b : Point2D) (t : List Point2D) : Triple3 (o :: a :: b :: t) o a b :=
  ⟨[], t, rfl⟩

theorem Triple3.adj_left {l : List Point2D} {o a b : Point2D} (h : Triple3 l o a b) :
    Adj l o a := by
  obtain ⟨s, t, rfl⟩ := h
  exact ⟨s, b :: t, rfl⟩

theorem Triple3.adj_right {l : List Point2D} {o a b : Point2D} (h : Triple3 l o a b) :
    Adj l a b := by
  obtain ⟨s, t, rfl⟩ := h
  exact ⟨s ++ [o], t, by simp⟩

theorem Adj.mem_left {l : List Point2D} {a b : Point2D} (h : Adj l a b) : a ∈ l := by
  obtain ⟨s, t, rfl⟩ := h
  simp

theorem Adj.mem_right {l : List Point2D} {a b : Point2D} (h : Adj l a b) : b ∈ l := by
  obtain ⟨s, t, rfl⟩ := h
  simp

theorem adj_reverse {l : List Point2D} {a b : Point2D} (h : Adj l a b) :
    Adj l.reverse b a := by
  obtain ⟨s, t, rfl⟩ := h
  refine ⟨t.reverse, s.reverse, ?_⟩
  simp

theorem adj_of_reverse {l : List Point2D} {a b : Point2D} (h : Adj l.reverse b a) :
    Adj l a b := by
  have := adj_reverse h
  rwa [List.reverse_reverse] at this

theorem triple3_reverse {l : List Point2D} {o a b : Point2D} (h : Triple3 l o a b) :
    Triple3 l.reverse b a o := by
  obtain ⟨s, t, rfl⟩ := h
  refine ⟨t.reverse, s.reverse, ?_⟩
  simp

theorem Adj.rel_of_pairwise {l : List Point2D} {a b : Point2D} {R : Point2D → Point2D → Prop}
    (h : Adj l a b) (hp : l.Pairwise R) : R a b := by
  obtain ⟨s, t, rfl⟩ := h
  have := (List.pairwise_append.mp hp).2.1
  exact (List.pairwise_cons.mp this).1 b (by simp)

/-- Extract a successor element from an adjacent pair that does not end the list. -/
theorem Adj.succ {l : List Point2D} {a b : Point2D} (h : Adj l a b)
    (hne : l.getLast? ≠ some b) : ∃ c, Triple3 l a b c := by
  obtain ⟨s, t, rfl⟩ := h
  cases t with
  | nil => exact absurd (by simp [List.getLast?_append]) hne
  | cons c t' => exact ⟨c, s, t', rfl⟩

/-- From adjacent relations to full pairwise, given transitivity. -/
theorem pairwise_of_adj {R : Point2D → Point2D → Prop}
    (htr : ∀ a b c, R a b → R b c → R a c) :
    ∀ l : List Point2D, (∀ a b, Adj l a b → R a b) → l.Pairwise R
  | [], _ => List.Pairwise.nil
  | [x], _ => by simp
  | x :: y :: t, h => by
      have tail_pw : (y :: t).Pairwise R :=
        pairwise_of_adj htr (y :: t) (fun a b hab => h a b (adj_cons hab x))
      refine List.pairwise_cons.mpr ⟨?_, tail_pw⟩
      have hxy : R x y := h x y (adj_head x y t)
      intro z hz
      rcases List.mem_cons.mp hz with rfl | hzt
      · exact hxy
      · exact htr _ _ _ hxy ((List.pairwise_cons.mp tail_pw).1 z hzt)

/-- In a strictly sorted list, two elements with no element strictly between them
are adjacent. -/
theorem sorted_adjacent :
    ∀ (l : List Point2D), l.Pairwise lexPointLt →
      ∀ x y, x ∈ l → y ∈ l → lexPointLt x y →
      (∀ z ∈ l, ¬(lexPointLt x z ∧ lexPointLt z y)) → Adj l x y
  | [], _, x, y, hx, _, _, _ => absurd hx (List.not_mem_nil x)
  | c :: l', hpw, x, y, hx, hy, hxy, hbetween => by
      have hpw' := List.pairwise_cons.mp hpw
      rcases List.mem_cons.mp hx with rfl | hx'
      · have hy' : y ∈ l' := by
          rcases List.mem_cons.mp hy with rfl | h
          · exact absurd hxy (lexPointLt_irrefl y)
          · exact h
        cases l' with
        | nil => exact absurd hy' (List.not_mem_nil y)
        | cons z l'' =>
          rcases List.mem_cons.mp hy' with rfl | hy''
          · exact adj_head x y l''
          · exfalso
            refine hbetween z (by simp) ⟨hpw'.1 z (by simp), ?_⟩
            exact (List.pairwise_cons.mp hpw'.2).1 y hy''
      · have hy' : y ∈ l' := by
          rcases List.mem_cons.mp hy with rfl | h
          · exact absurd (hpw'.1 x hx') (fun hc => lexPointLt_asymm hc hxy)
          · exact h
        exact adj_cons (sorted_adjacent l' hpw'.2 x y hx' hy' hxy
          (fun z hz => hbetween z (List.mem_cons_of_mem c hz))) c

theorem popChain_suffix (p : Point2D) : ∀ st : List Point2D, ∃ d, st = d ++ popChain p st
  | [] => ⟨[], rfl⟩
  | [x] => ⟨[], rfl⟩
  | b :: a :: rest => by
      rw [popChain]
      split
      · obtain ⟨d, hd⟩ := popChain_suffix p (a :: rest)
        exact ⟨b :: d, by rw [List.cons_append, ← hd]⟩
      · exact ⟨[], rfl⟩

theorem popChain_stop (p : Point2D) :
    ∀ (st : List Point2D) (b a : Point2D) (r : List Point2D),
      popChain p st = b :: a :: r → Polygon.TOLERANCE < cross3 a b p
  | [], b, a, r => by intro h; exact absurd h (by simp [popChain])
  | [x], b, a, r => by intro h; exact absurd h (by simp [popChain])
  | b' :: a' :: rest, b, a, r => by
      rw [popChain]
      split
      · exact popChain_stop p (a' :: rest) b a r
      · next hc =>
        intro h
        obtain ⟨rfl, rfl, rfl⟩ : b' = b ∧ a' = a ∧ rest = r := by
          injection h with h1 h2
          injection h2 with h2 h3
          exact ⟨h1, h2, h3⟩
        exact not_le.mp hc

theorem popChain_ne_nil (p : Point2D) :
    ∀ st : List Point2D, st ≠ [] → popChain p st ≠ []
  | [], h => absurd rfl h
  | [x], _ => by simp [popChain]
  | b :: a :: rest, _ => by
      rw [popChain]
      split
      · exact popChain_ne_nil p (a :: rest) (by simp)
      · simp

end PlanarGeometry

namespace PlanarGeometry

/- ### C6 chunk 3: the chain-pass invariant of the Graham scan -/

theorem adj_nil {x y : Point2D} : ¬ Adj [] x y := by
  rintro ⟨s, t, h⟩
  simp at h

theorem adj_single {c x y : Point2D} : ¬ Adj [c] x y := by
  rintro ⟨s, t, h⟩
  have := congrArg List.length h
  simp at this
  omega

theorem adj_cons_cases {c : Point2D} {l : List Point2D} {x y : Point2D}
    (h : Adj (c :: l) x y) : (c = x ∧ ∃ t, l = y :: t) ∨ Adj l x y := by
  obtain ⟨s, t, hs⟩ := h
  cases s with
  | nil =>
      injection hs with h1 h2
      exact Or.inl ⟨h1, t, h2⟩
  | cons s0 s' =>
      injection hs with h1 h2
      exact Or.inr ⟨s', t, h2⟩

theorem adj_pair {u v x y : Point2D} (h : Adj [u, v] x y) : u = x ∧ v = y := by
  rcases adj_cons_cases h with ⟨h1, t, ht⟩ | h'
  · injection ht with h2 h3
    exact ⟨h1, h2⟩
  · exact absurd h' adj_single

theorem triple3_cons_cases {c : Point2D} {l : List Point2D} {x y z : Point2D}
    (h : Triple3 (c :: l) x y z) : (c = x ∧ ∃ t, l = y :: z :: t) ∨ Triple3 l x y z := by
  obtain ⟨s, t, hs⟩ := h
  cases s with
  | nil =>
      injection hs with h1 h2
      exact Or.inl ⟨h1, t, h2⟩
  | cons s0 s' =>
      injection hs with h1 h2
      exact Or.inr ⟨s', t, h2⟩

/-- Downward propagation of the push check through a stack whose consecutive
triples are strict left turns: every adjacent pair of the stack sees the
incoming point strictly on the left, beyond tolerance. -/
theorem shield_descent (p : Point2D) :
    ∀ (rest : List Point2D) (b a : Point2D),
      (∀ x y z, Triple3 (b :: a :: rest) x y z → Polygon.TOLERANCE < cross3 z y x) →
      (∀ x y z, Triple3 (b :: a :: rest) x y z → z.x < y.x) →
      (∀ x ∈ b :: a :: rest, x.x ≤ p.x) →
      a.x < b.x →
      Polygon.TOLERANCE < cross3 a b p →
      ∀ x y, Adj (b :: a :: rest) x y → Polygon.TOLERANCE < cross3 y x p
  | [], b, a => by
      intro _ _ _ _ hcheck x y hadj
      rcases adj_pair hadj with ⟨rfl, rfl⟩
      exact hcheck
  | r :: rest', b, a => by
      intro htri hordx hxb hab hcheck x y hadj
      have htop : Polygon.TOLERANCE < cross3 r a b := htri b a r (triple3_head b a r rest')
      have hra : r.x < a.x := hordx b a r (triple3_head b a r rest')
      have hbp : b.x ≤ p.x := hxb b (by simp)
      have hcheck' : Polygon.TOLERANCE < cross3 r a p :=
        cross3_comp1 (le_of_lt hra) hab hbp htop hcheck
      rcases adj_cons_cases hadj with ⟨rfl, t, ht⟩ | hadj'
      · injection ht with h1 h2
        subst h1
        exact hcheck
      · exact shield_descent p rest' a r
          (fun x' y' z' h => htri x' y' z' (triple3_cons h b))
          (fun x' y' z' h => hordx x' y' z' (triple3_cons h b))
          (fun x' hx' => hxb x' (List.mem_cons_of_mem b hx'))
          hra hcheck' x y hadj'

/-- The stack invariant of one chain pass: the stack is a strictly convex,
sorted sub-chain of the processed points, it keeps the first and the last
processed point at its ends, and every adjacent stack pair turns strictly
left, beyond tolerance, towards every processed point above the pair. -/
structure RunInv (processed st : List Point2D) : Prop where
  mem : ∀ x ∈ st, x ∈ processed
  nil_st : st = [] → processed = []
  tophd : st.head? = processed.getLast?
  botlast : st.getLast? = processed.head?
  ord : ∀ x y, Adj st x y → lexPointLe y x
  dup2 : ∀ x y, Adj st x y → x = y → st = [x, y]
  ordx : ∀ x y z, Triple3 st x y z → z.x < y.x
  tri : ∀ x y z, Triple3 st x y z → Polygon.TOLERANCE < cross3 z y x
  shield : ∀ x y, Adj st x y → ∀ v ∈ processed, lexPointLt x v →
    Polygon.TOLERANCE < cross3 y x v

theorem runInv_step {processed st : List Point2D} {p : Point2D}
    (inv : RunInv processed st) (hp : ∀ v ∈ processed, lexPointLe v p) :
    RunInv (processed ++ [p]) (p :: popChain p st) := by
  obtain ⟨d, hd⟩ := popChain_suffix p st
  set C := popChain p st with hC
  have memC : ∀ x ∈ C, x ∈ processed := fun x hx =>
    inv.mem x (by rw [hd]; exact List.mem_append_right d hx)
  have adjC : ∀ x y, Adj C x y → Adj st x y := fun x y h => by
    rw [hd]; exact adj_append_left h d
  have triC : ∀ x y z, Triple3 C x y z → Triple3 st x y z := fun x y z h => by
    rw [hd]; exact triple3_append_left h d
  have xC : ∀ x ∈ C, x.x ≤ p.x := fun x hx => lexPointLe_x_le (hp x (memC x hx))
  -- strictness of the top pair of C whenever C has at least two entries
  have topstrict : ∀ b a r, C = b :: a :: r → a.x < b.x := by
    intro b a r hCr
    have hstop : Polygon.TOLERANCE < cross3 a b p := popChain_stop p st b a r (hC ▸ hCr)
    have hle : lexPointLe a b := inv.ord b a (adjC b a (by rw [hCr]; exact adj_head b a r))
    rcases lt_or_eq_of_le (lexPointLe_x_le hle) with h | h
    · exact h
    · exfalso
      have hya : a.y ≤ b.y := by
        rcases hle with h' | ⟨_, h'⟩
        · exact absurd h' (by rw [h]; exact lt_irrefl _)
        · exact h'
      have := cross3_vert_nonpos h hya (xC b (by rw [hCr]; simp))
      linarith [tol_pos]
  have hstne_of_C : ∀ c C', C = c :: C' → st ≠ [] := by
    intro c C' hCr h
    rw [h] at hC
    rw [show popChain p [] = [] from rfl] at hC
    rw [hC] at hCr
    exact absurd hCr (by simp)
  have hprne_of_st : st ≠ [] → processed ≠ [] := by
    intro hst hpr
    cases hs : st with
    | nil => exact hst hs
    | cons s0 s' =>
        have := inv.mem s0 (by rw [hs]; simp)
        rw [hpr] at this
        exact absurd this (List.not_mem_nil s0)
  constructor
  · -- mem
    intro x hx
    rcases List.mem_cons.mp hx with rfl | hx'
    · exact List.mem_append_right processed (by simp)
    · exact List.mem_append_left _ (memC x hx')
  · -- nil_st
    intro h
    exact absurd h (by simp)
  · -- tophd
    rw [List.getLast?_append_of_ne_nil processed (by simp)]
    simp
  · -- botlast
    cases hCnil : C with
    | nil =>
        have hstnil : st = [] := by
          by_contra hne
          exact popChain_ne_nil p st hne (hC ▸ hCnil)
        have hpr : processed = [] := inv.nil_st hstnil
        subst hpr
        simp [hCnil]
    | cons c C' =>
        have hstne : st ≠ [] := hstne_of_C c C' hCnil
        have hprne : processed ≠ [] := hprne_of_st hstne
        rw [List.head?_append_of_ne_nil processed hprne, ← inv.botlast, hd,
          List.getLast?_append_of_ne_nil d (by rw [hCnil]; simp), hCnil]
        exact List.getLast?_cons_cons
  · -- ord
    intro x y hadj
    rcases adj_cons_cases hadj with ⟨rfl, t, ht⟩ | hadj'
    · have hy : y ∈ C := by rw [ht]; simp
      exact hp y (memC y hy)
    · exact inv.ord x y (adjC x y hadj')
  · -- dup2
    intro x y hadj hxy
    rcases adj_cons_cases hadj with ⟨rfl, t, ht⟩ | hadj'
    · subst hxy
      cases t with
      | nil => rw [ht]
      | cons t0 t1 =>
          exfalso
          have hstop : Polygon.TOLERANCE < cross3 t0 p p :=
            popChain_stop p st p t0 t1 (by rw [← hC, ht])
          rw [cross3_self_right] at hstop
          linarith [tol_pos]
    · exfalso
      have hst2 : st = [x, y] := inv.dup2 x y (adjC x y hadj') hxy
      subst hxy
      have hCval : C = [x] := by
        rw [hC, hst2, popChain, if_pos (by rw [cross3_self_left]; linarith [tol_pos])]
        rfl
      rw [hCval] at hadj'
      exact adj_single hadj'
  · -- ordx
    intro x y z htr
    rcases triple3_cons_cases htr with ⟨rfl, t, ht⟩ | htr'
    · exact topstrict y z t ht
    · exact inv.ordx x y z (triC x y z htr')
  · -- tri
    intro x y z htr
    rcases triple3_cons_cases htr with ⟨rfl, t, ht⟩ | htr'
    · exact popChain_stop p st y z t (hC ▸ ht)
    · exact inv.tri x y z (triC x y z htr')
  · -- shield
    intro x y hadj v hv hlt
    rcases adj_cons_cases hadj with ⟨rfl, t, ht⟩ | hadj'
    · exfalso
      rcases List.mem_append.mp hv with hv' | hv'
      · exact lexPointLt_le_asymm hlt (hp v hv')
      · rw [List.mem_singleton.mp hv'] at hlt
        exact lexPointLt_irrefl p hlt
    · rcases List.mem_append.mp hv with hv' | hv'
      · exact inv.shield x y (adjC x y hadj') v hv' hlt
      · rw [List.mem_singleton.mp hv']
        obtain ⟨b0, a0, r0, hCr⟩ : ∃ b0 a0 r0, C = b0 :: a0 :: r0 := by
          obtain ⟨s, t, hs⟩ := hadj'
          cases s with
          | nil => exact ⟨x, y, t, by simpa using hs⟩
          | cons s0 s' =>
              cases s' with
              | nil => exact ⟨s0, x, y :: t, by simpa using hs⟩
              | cons s1 s'' => exact ⟨s0, s1, s'' ++ x :: y :: t, by simpa using hs⟩
        have hstop : Polygon.TOLERANCE < cross3 a0 b0 p :=
          popChain_stop p st b0 a0 r0 (hC ▸ hCr)
        have hab0 : a0.x < b0.x := topstrict b0 a0 r0 hCr
        have := shield_descent p r0 b0 a0
          (fun x' y' z' h => inv.tri x' y' z' (triC x' y' z' (hCr ▸ h)))
          (fun x' y' z' h => inv.ordx x' y' z' (triC x' y' z' (hCr ▸ h)))
          (fun x' hx' => xC x' (hCr ▸ hx'))
          hab0 hstop x y (hCr ▸ hadj')
        exact this

end PlanarGeometry

namespace PlanarGeometry

/- ### C6 chunk 4: invariants of a full chain pass, in chain order -/

def chainStack (pts : List Point2D) : List Point2D :=
  pts.foldl (fun chain p => p :: popChain p chain) []

theorem chainFold_eq_reverse (pts : List Point2D) :
    chainFold pts = (chainStack pts).reverse := rfl

theorem chainStack_snoc (S : List Point2D) (p : Point2D) :
    chainStack (S ++ [p]) = p :: popChain p (chainStack S) := by
  simp [chainStack, List.foldl_append]

theorem runInv_base : RunInv [] [] where
  mem := by simp
  nil_st := fun _ => rfl
  tophd := rfl
  botlast := rfl
  ord := fun x y h => absurd h adj_nil
  dup2 := fun x y h => absurd h adj_nil
  ordx := fun x y z h => absurd h (by rintro ⟨s, t, hs⟩; simp at hs)
  tri := fun x y z h => absurd h (by rintro ⟨s, t, hs⟩; simp at hs)
  shield := fun x y h => absurd h adj_nil

theorem runInv_chainStack : ∀ S : List Point2D, S.Pairwise lexPointLe →
    RunInv S (chainStack S) := by
  intro S
  induction S using List.reverseRecOn with
  | nil => intro _; exact runInv_base
  | append_singleton T p IH =>
      intro hpw
      rw [chainStack_snoc]
      have h := List.pairwise_append.mp hpw
      exact runInv_step (IH h.1) (fun v hv => h.2.2 v hv p (by simp))

theorem adj_chainFold_to_stack {S : List Point2D} {a b : Point2D}
    (h : Adj (chainFold S) a b) : Adj (chainStack S) b a := by
  rw [chainFold_eq_reverse] at h
  have := adj_reverse h
  rwa [List.reverse_reverse] at this

theorem triple3_chainFold_to_stack {S : List Point2D} {o a b : Point2D}
    (h : Triple3 (chainFold S) o a b) : Triple3 (chainStack S) b a o := by
  rw [chainFold_eq_reverse] at h
  have := triple3_reverse h
  rwa [List.reverse_reverse] at this

theorem cf_mem {S : List Point2D} (hpw : S.Pairwise lexPointLe) :
    ∀ x ∈ chainFold S, x ∈ S := by
  intro x hx
  rw [chainFold_eq_reverse, List.mem_reverse] at hx
  exact (runInv_chainStack S hpw).mem x hx

theorem cf_tri {S : List Point2D} (hpw : S.Pairwise lexPointLe) :
    ∀ o a b, Triple3 (chainFold S) o a b → Polygon.TOLERANCE < cross3 o a b := by
  intro o a b h
  exact (runInv_chainStack S hpw).tri b a o (triple3_chainFold_to_stack h)

theorem cf_shield {S : List Point2D} (hpw : S.Pairwise lexPointLe) :
    ∀ a b, Adj (chainFold S) a b → ∀ v ∈ S, lexPointLt b v →
      Polygon.TOLERANCE < cross3 a b v := by
  intro a b h v hv hlt
  exact (runInv_chainStack S hpw).shield b a (adj_chainFold_to_stack h) v hv hlt

theorem cf_sorted {S : List Point2D} (hpw : S.Pairwise lexPointLe) :
    (chainFold S).Pairwise lexPointLe := by
  refine pairwise_of_adj (R := lexPointLe) (fun a b c hab hbc => lexPointLe_trans hab hbc) (chainFold S) ?_
  intro a b h
  exact (runInv_chainStack S hpw).ord b a (adj_chainFold_to_stack h)

theorem cf_strict {S : List Point2D} (hpw : S.Pairwise lexPointLe)
    (h2 : ∀ q : Point2D, chainFold S ≠ [q, q]) :
    (chainFold S).Pairwise lexPointLt := by
  refine pairwise_of_adj (R := lexPointLt) (fun a b c hab hbc => lexPointLt_trans hab hbc) (chainFold S) ?_
  intro a b h
  have hle : lexPointLe a b :=
    (runInv_chainStack S hpw).ord b a (adj_chainFold_to_stack h)
  refine lexPointLe_ne_lt hle ?_
  intro hab
  have hst : chainStack S = [b, a] :=
    (runInv_chainStack S hpw).dup2 b a (adj_chainFold_to_stack h) hab.symm
  refine h2 a ?_
  rw [chainFold_eq_reverse, hst, hab]
  simp

theorem cf_head {S : List Point2D} (hpw : S.Pairwise lexPointLe) :
    (chainFold S).head? = S.head? := by
  rw [chainFold_eq_reverse, List.head?_reverse]
  exact (runInv_chainStack S hpw).botlast

theorem cf_getLast {S : List Point2D} (hpw : S.Pairwise lexPointLe) :
    (chainFold S).getLast? = S.getLast? := by
  rw [chainFold_eq_reverse, List.getLast?_reverse]
  exact (runInv_chainStack S hpw).tophd

end PlanarGeometry

namespace PlanarGeometry

/- ### C6 chunk 5: point negation transports the upper chain to a lower chain -/

def negP (p : Point2D) : Point2D := ⟨-p.x, -p.y⟩

theorem negP_involutive (p : Point2D) : negP (negP p) = p := by
  cases p; simp [negP]

theorem map_negP_involutive (l : List Point2D) : (l.map negP).map negP = l := by
  rw [List.map_map]
  have : negP ∘ negP = id := funext negP_involutive
  rw [this, List.map_id]

theorem cross3_negP (a b c : Point2D) : cross3 (negP a) (negP b) (negP c) = cross3 a b c := by
  simp only [cross3, negP]; ring

theorem lexPointLt_negP {a b : Point2D} : lexPointLt (negP a) (negP b) ↔ lexPointLt b a := by
  simp only [lexPointLt, negP]
  constructor <;> rintro (h | ⟨h1, h2⟩)
  · exact Or.inl (by linarith)
  · exact Or.inr ⟨by linarith, by linarith⟩
  · exact Or.inl (by linarith)
  · exact Or.inr ⟨by linarith, by linarith⟩

theorem lexPointLe_negP {a b : Point2D} : lexPointLe (negP a) (negP b) ↔ lexPointLe b a := by
  simp only [lexPointLe, negP]
  constructor <;> rintro (h | ⟨h1, h2⟩)
  · exact Or.inl (by linarith)
  · exact Or.inr ⟨by linarith, by linarith⟩
  · exact Or.inl (by linarith)
  · exact Or.inr ⟨by linarith, by linarith⟩

theorem popChain_negP (p : Point2D) :
    ∀ st : List Point2D, popChain (negP p) (st.map negP) = (popChain p st).map negP
  | [] => rfl
  | [x] => rfl
  | b :: a :: rest => by
      simp only [List.map_cons, popChain, cross3_negP]
      split
      · have := popChain_negP p (a :: rest)
        simpa using this
      · rfl

theorem chainStack_negP_aux :
    ∀ (S st : List Point2D),
      (S.map negP).foldl (fun chain p => p :: popChain p chain) (st.map negP) =
        (S.foldl (fun chain p => p :: popChain p chain) st).map negP
  | [], st => rfl
  | p :: S', st => by
      simp only [List.map_cons, List.foldl_cons]
      rw [show (negP p :: popChain (negP p) (List.map negP st)) = (p :: popChain p st).map negP
        from by rw [popChain_negP]; rfl]
      exact chainStack_negP_aux S' (p :: popChain p st)

theorem chainStack_negP (S : List Point2D) :
    chainStack (S.map negP) = (chainStack S).map negP := by
  have := chainStack_negP_aux S []
  simpa [chainStack] using this

theorem chainFold_negP (S : List Point2D) :
    chainFold (S.map negP) = (chainFold S).map negP := by
  rw [chainFold_eq_reverse, chainFold_eq_reverse, chainStack_negP]
  simp [List.map_reverse]

end PlanarGeometry

namespace PlanarGeometry

/- ### C6 chunk 6: a strict chain stays strictly on one side of its chord -/

theorem triple_strictx {C : List Point2D} {a b c : Point2D}
    (htri : ∀ o x y, Triple3 C o x y → Polygon.TOLERANCE < cross3 o x y)
    (hpw : C.Pairwise lexPointLe)
    (h : Triple3 C a b c) : a.x < b.x := by
  have hle1 : lexPointLe a b := h.adj_left.rel_of_pairwise hpw
  have hle2 : lexPointLe b c := h.adj_right.rel_of_pairwise hpw
  rcases lt_or_eq_of_le (lexPointLe_x_le hle1) with hx | hx
  · exact hx
  · exfalso
    have hy : a.y ≤ b.y := by
      rcases hle1 with h' | ⟨_, h'⟩
      · exact absurd h' (by rw [hx]; exact lt_irrefl _)
      · exact h'
    have := cross3_vert_nonpos hx hy (lexPointLe_x_le hle2)
    linarith [htri a b c h, tol_pos]

theorem chord_side :
    ∀ (mid : List Point2D) (q1 qm : Point2D),
      (∀ o a b, Triple3 (q1 :: mid ++ [qm]) o a b → Polygon.TOLERANCE < cross3 o a b) →
      (q1 :: mid ++ [qm]).Pairwise lexPointLe →
      ∀ q ∈ mid, cross3 q1 qm q < 0 := by
  intro mid
  induction mid using List.reverseRecOn with
  | nil => intro q1 qm _ _ q hq; exact absurd hq (List.not_mem_nil q)
  | append_singleton mid' w IH =>
      intro q1 qm htri hpw q hq
      have hpwC : ((q1 :: mid' ++ [w]) ++ [qm]).Pairwise lexPointLe := by simpa using hpw
      have hpw' : (q1 :: mid' ++ [w]).Pairwise lexPointLe := (List.pairwise_append.mp hpwC).1
      have htri' : ∀ o a b, Triple3 (q1 :: mid' ++ [w]) o a b →
          Polygon.TOLERANCE < cross3 o a b := by
        intro o a b h
        exact htri o a b (by simpa using triple3_append_right h [qm])
      -- head relations of the full chain
      have hhead := (List.pairwise_cons.mp hpw).1
      have hF5 : ∀ z ∈ mid', q1.x ≤ z.x := by
        intro z hz
        exact lexPointLe_x_le (hhead z (by simp [hz]))
      have hF6 : w.x ≤ qm.x := by
        have htail := (List.pairwise_cons.mp hpw).2
        have := (List.pairwise_append.mp htail).2.2 w (by simp) qm (by simp)
        exact lexPointLe_x_le this
      -- F1 and F3
      have hF13 : 0 < cross3 q1 w qm ∧ q1.x < w.x := by
        rcases List.eq_nil_or_concat mid' with rfl | ⟨mid'', v, rfl⟩
        · have htrip : Triple3 (q1 :: ([] : List Point2D) ++ [w] ++ [qm]) q1 w qm :=
            ⟨[], [], by simp⟩
          have htrip' : Triple3 (q1 :: ([] : List Point2D) ++ [w, qm]) q1 w qm := by
            simpa using htrip
          have h1 := htri q1 w qm (by simpa using htrip')
          have h2 := triple_strictx htri hpw (by simpa using htrip')
          exact ⟨lt_trans tol_pos h1, h2⟩
        · have htrip : Triple3 (q1 :: (mid'' ++ [v] ++ [w]) ++ [qm]) v w qm :=
            ⟨q1 :: mid'', [], by simp⟩
          have htripC : Triple3 (q1 :: (mid'' ++ [v] ++ [w]) ++ [qm]) v w qm := htrip
          have hvw : v.x < w.x := by
            have := triple_strictx htri hpw (by simpa using htripC)
            exact this
          have hq1v : q1.x ≤ v.x := hF5 v (by simp)
          have hF3 : q1.x < w.x := lt_of_le_of_lt hq1v hvw
          have h1 : cross3 q1 w v < 0 := IH q1 w htri' hpw' v (by simp)
          have h2 : Polygon.TOLERANCE < cross3 v w qm := htri v w qm (by simpa using htripC)
          exact ⟨cross3_pivotE hF3 hvw hF6 h1 h2, hF3⟩
      obtain ⟨hF1, hF3⟩ := hF13
      have hF4 : q1.x < qm.x := lt_of_lt_of_le hF3 hF6
      rcases List.mem_append.mp hq with hq' | hq'
      · exact cross3_pivotM hF3 hF4 (hF5 q hq') (IH q1 w htri' hpw' q hq') hF1
      · rw [List.mem_singleton.mp hq', cross3_swap]
        linarith

end PlanarGeometry

namespace PlanarGeometry

/- ### C6 chunk 7: helpers for the rerun simulation -/

theorem lexPointLt_ne {a b : Point2D} (h : lexPointLt a b) : a ≠ b := by
  intro he
  exact lexPointLt_irrefl a (he ▸ h)

theorem reverse_cons_decomp {l : List Point2D} {b : Point2D} {r : List Point2D}
    (h : l.reverse = b :: r) : l = r.reverse ++ [b] := by
  rw [← List.reverse_reverse l, h]
  simp

theorem getLastD_of_reverse_cons {l : List Point2D} {b : Point2D} {r : List Point2D}
    (h : l.reverse = b :: r) (d : Point2D) : l.getLastD d = b := by
  rw [List.getLastD_eq_getLast?, ← List.head?_reverse, h]
  rfl

theorem getLastD_eq_of_getLast? {l : List Point2D} {x d : Point2D}
    (h : l.getLast? = some x) : l.getLastD d = x := by
  rw [List.getLastD_eq_getLast?, h]
  rfl

theorem popChain_eq_self_of_top {y : Point2D} (st : List Point2D)
    (h : ∀ b a r, st = b :: a :: r → Polygon.TOLERANCE < cross3 a b y) :
    popChain y st = st := by
  cases st with
  | nil => rfl
  | cons b st' =>
      cases st' with
      | nil => rfl
      | cons a r =>
          rw [popChain, if_neg (not_le.mpr (h b a r rfl))]

theorem nodup_of_pairwise_lt {l : List Point2D} (h : l.Pairwise lexPointLt) : l.Nodup :=
  h.imp lexPointLt_ne

end PlanarGeometry

namespace PlanarGeometry

/- ### C6 chunk 8: rerunning one chain pass on the union of the chain and the
points of the opposite chain reproduces the chain exactly -/

theorem rerun_go (L Um : List Point2D) (p1 pm : Point2D)
    (hLlast : L.getLast? = some pm)
    (hLtri : ∀ o a b, Triple3 L o a b → Polygon.TOLERANCE < cross3 o a b)
    (hLsort : L.Pairwise lexPointLt)
    (hrange : ∀ u ∈ Um, lexPointLt u pm)
    (hD1 : ∀ a b, Adj L a b → ∀ u ∈ Um, lexPointLt b u → Polygon.TOLERANCE < cross3 a b u)
    (hD3 : ∀ a b, Adj L a b → ∀ u ∈ Um, lexPointLt a u → lexPointLt u b →
      cross3 a u b ≤ Polygon.TOLERANCE)
    (hD2 : ∀ u u', u ∈ Um → u' ∈ Um → lexPointLt u u' →
      (∀ w ∈ Um, ¬(lexPointLt u w ∧ lexPointLt w u')) →
      ∀ a ∈ L, lexPointLt a u → cross3 a u u' ≤ Polygon.TOLERANCE) :
    ∀ (R Lpre Lrest UmR st : List Point2D),
      L = Lpre ++ Lrest → Lpre ≠ [] →
      R.Perm (Lrest ++ UmR) → (∀ u ∈ UmR, u ∈ Um) →
      R.Pairwise lexPointLt →
      (∀ y ∈ R, lexPointLt (st.headD p1) y) →
      (∀ w ∈ Um, lexPointLt (st.headD p1) w → w ∈ R) →
      (st = Lpre.reverse ∨
        ∃ u, u ∈ Um ∧ st = u :: Lpre.reverse ∧ lexPointLt (Lpre.getLastD p1) u) →
      R.foldl (fun chain p => p :: popChain p chain) st = L.reverse
  | [], Lpre, Lrest, UmR, st => by
      intro hsplit hLpre hperm hUmR hpwR hgt hfut hshape
      have h0 : Lrest ++ UmR = [] := hperm.symm.eq_nil
      obtain ⟨hLr, hUm0⟩ := List.append_eq_nil.mp h0
      subst hLr
      rw [List.append_nil] at hsplit
      rcases hshape with hst | ⟨u, huUm, hst, hLu⟩
      · rw [List.foldl_nil, hst, hsplit]
      · exfalso
        have h1 : Lpre.getLastD p1 = pm := by
          rw [← hsplit]
          exact getLastD_eq_of_getLast? hLlast
        rw [h1] at hLu
        exact lexPointLt_asymm hLu (hrange u huUm)
  | y :: R', Lpre, Lrest, UmR, st => by
      intro hsplit hLpre hperm hUmR hpwR hgt hfut hshape
      obtain ⟨hyR', hpwR'⟩ := List.pairwise_cons.mp hpwR
      have hyy : lexPointLt (st.headD p1) y := hgt y (by simp)
      obtain ⟨b, rev', hrev⟩ : ∃ b rev', Lpre.reverse = b :: rev' := by
        cases hLp : Lpre.reverse with
        | nil =>
            exact absurd (by rw [← List.reverse_reverse Lpre, hLp]; rfl) hLpre
        | cons b r => exact ⟨b, r, rfl⟩
      have hLpre_eq : Lpre = rev'.reverse ++ [b] := reverse_cons_decomp hrev
      have hbLast : Lpre.getLastD p1 = b := getLastD_of_reverse_cons hrev p1
      have hbL : b ∈ L := by rw [hsplit, hLpre_eq]; simp
      have hnopop_Um : y ∈ Um → lexPointLt b y →
          popChain y Lpre.reverse = Lpre.reverse := by
        intro hyUm hby
        apply popChain_eq_self_of_top
        intro b' a' r' h
        rw [hrev] at h
        injection h with h1 h2
        subst h1
        have hadj : Adj L a' b := by
          refine ⟨r'.reverse, Lrest, ?_⟩
          rw [hsplit, reverse_cons_decomp (by rw [hrev, h2] : Lpre.reverse = b :: a' :: r')]
          simp
        exact hD1 a' b hadj y hyUm hby
      have hnopop_L : ∀ Lrest', Lrest = y :: Lrest' →
          popChain y Lpre.reverse = Lpre.reverse := by
        intro Lrest' hLr
        apply popChain_eq_self_of_top
        intro b' a' r' h
        rw [hrev] at h
        injection h with h1 h2
        subst h1
        have htrip : Triple3 L a' b y := by
          refine ⟨r'.reverse, Lrest', ?_⟩
          rw [hsplit, hLr, reverse_cons_decomp (by rw [hrev, h2] : Lpre.reverse = b :: a' :: r')]
          simp
        exact hLtri a' b y htrip
      by_cases hyLrest : y ∈ Lrest
      · -- the next point continues the chain
        obtain ⟨l1, Lrest', rfl⟩ : ∃ l1 Lrest', Lrest = l1 :: Lrest' := by
          cases Lrest with
          | nil => exact absurd hyLrest (List.not_mem_nil y)
          | cons a bl => exact ⟨a, bl, rfl⟩
        have hy1 : y = l1 := by
          have hl1R : l1 ∈ y :: R' := hperm.mem_iff.mpr (by simp)
          rcases List.mem_cons.mp hl1R with h | h
          · exact h.symm
          · rcases List.mem_cons.mp hyLrest with h' | h'
            · exact h'
            · exfalso
              have hLrest_pw : (l1 :: Lrest').Pairwise lexPointLt :=
                (List.pairwise_append.mp (hsplit ▸ hLsort)).2.1
              exact lexPointLt_asymm ((List.pairwise_cons.mp hLrest_pw).1 y h') (hyR' l1 h)
        subst hy1
        have hpop : popChain y st = Lpre.reverse := by
          rcases hshape with hst | ⟨u, huUm, hst, hLu⟩
          · rw [hst]; exact hnopop_L Lrest' rfl
          · have hbu : lexPointLt b u := hbLast ▸ hLu
            have huy : lexPointLt u y := by
              have h' := hyy
              rw [hst] at h'
              simpa using h'
            have hadj : Adj L b y := by
              refine ⟨rev'.reverse, Lrest', ?_⟩
              rw [hsplit, hLpre_eq]
              simp
            have hcond : cross3 b u y ≤ Polygon.TOLERANCE := hD3 b y hadj u huUm hbu huy
            rw [hst, hrev, popChain, if_pos hcond, ← hrev]
            exact hnopop_L Lrest' rfl
        rw [List.foldl_cons, hpop]
        refine rerun_go L Um p1 pm hLlast hLtri hLsort hrange hD1 hD3 hD2 R'
          (Lpre ++ [y]) Lrest' UmR (y :: Lpre.reverse)
          (by rw [hsplit]; simp) (by simp)
          ((by simpa using hperm : (y :: R').Perm (y :: (Lrest' ++ UmR))).cons_inv)
          hUmR hpwR' (by intro z hz; simpa using hyR' z hz) ?_ (Or.inl (by simp))
        intro w hw hlt
        have h1 : lexPointLt (st.headD p1) w := lexPointLt_trans hyy (by simpa using hlt)
        have h2 : w ∈ y :: R' := hfut w hw h1
        rcases List.mem_cons.mp h2 with rfl | h3
        · exact absurd (by simpa using hlt) (lexPointLt_irrefl w)
        · exact h3
      · -- the next point is a point of the opposite chain
        have hyUmR : y ∈ UmR := by
          have : y ∈ Lrest ++ UmR := hperm.mem_iff.mp (by simp)
          rcases List.mem_append.mp this with h | h
          · exact absurd h hyLrest
          · exact h
        have hyUm : y ∈ Um := hUmR y hyUmR
        have hperm' : R'.Perm (Lrest ++ UmR.erase y) := by
          have h1 : (Lrest ++ UmR).Perm (Lrest ++ (y :: UmR.erase y)) :=
            (List.perm_cons_erase hyUmR).append_left Lrest
          have h2 : (y :: R').Perm (y :: (Lrest ++ UmR.erase y)) :=
            (hperm.trans h1).trans List.perm_middle
          exact h2.cons_inv
        rcases hshape with hst | ⟨u, huUm, hst, hLu⟩
        · have hbylt : lexPointLt b y := by
            have h' := hyy
            rw [hst, hrev] at h'
            simpa using h'
          have hpop : popChain y st = Lpre.reverse := by
            rw [hst]; exact hnopop_Um hyUm hbylt
          rw [List.foldl_cons, hpop]
          refine rerun_go L Um p1 pm hLlast hLtri hLsort hrange hD1 hD3 hD2 R'
            Lpre Lrest (UmR.erase y) (y :: Lpre.reverse)
            hsplit hLpre hperm' (fun u hu => hUmR u (List.mem_of_mem_erase hu))
            hpwR' (by intro z hz; simpa using hyR' z hz) ?_
            (Or.inr ⟨y, hyUm, rfl, by rw [hbLast]; exact hbylt⟩)
          intro w hw hlt
          have h1 : lexPointLt (st.headD p1) w := lexPointLt_trans hyy (by simpa using hlt)
          have h2 : w ∈ y :: R' := hfut w hw h1
          rcases List.mem_cons.mp h2 with rfl | h3
          · exact absurd (by simpa using hlt) (lexPointLt_irrefl w)
          · exact h3
        · have huy : lexPointLt u y := by
            have h' := hyy
            rw [hst] at h'
            simpa using h'
          have hbu : lexPointLt b u := hbLast ▸ hLu
          have hbylt : lexPointLt b y := lexPointLt_trans hbu huy
          have hnob : ∀ w ∈ Um, ¬(lexPointLt u w ∧ lexPointLt w y) := by
            rintro w hw ⟨h1, h2⟩
            have h3 : lexPointLt (st.headD p1) w := by rw [hst]; simpa using h1
            have h4 := hfut w hw h3
            rcases List.mem_cons.mp h4 with rfl | h5
            · exact lexPointLt_irrefl w h2
            · exact lexPointLt_asymm h2 (hyR' w h5)
          have hcond : cross3 b u y ≤ Polygon.TOLERANCE :=
            hD2 u y huUm hyUm huy hnob b hbL hbu
          have hpop : popChain y st = Lpre.reverse := by
            rw [hst, hrev, popChain, if_pos hcond, ← hrev]
            exact hnopop_Um hyUm hbylt
          rw [List.foldl_cons, hpop]
          refine rerun_go L Um p1 pm hLlast hLtri hLsort hrange hD1 hD3 hD2 R'
            Lpre Lrest (UmR.erase y) (y :: Lpre.reverse)
            hsplit hLpre hperm' (fun v hv => hUmR v (List.mem_of_mem_erase hv))
            hpwR' (by intro z hz; simpa using hyR' z hz) ?_
            (Or.inr ⟨y, hyUm, rfl, by rw [hbLast]; exact hbylt⟩)
          intro w hw hlt
          have h1 : lexPointLt (st.headD p1) w := lexPointLt_trans hyy (by simpa using hlt)
          have h2 : w ∈ y :: R' := hfut w hw h1
          rcases List.mem_cons.mp h2 with rfl | h3
          · exact absurd (by simpa using hlt) (lexPointLt_irrefl w)
          · exact h3

end PlanarGeometry

namespace PlanarGeometry

theorem rerun_lower (L Um : List Point2D) (p1 pm : Point2D)
    (hLhead : L.head? = some p1) (hLlast : L.getLast? = some pm)
    (hLtri : ∀ o a b, Triple3 L o a b → Polygon.TOLERANCE < cross3 o a b)
    (hLsort : L.Pairwise lexPointLt)
    (hrange : ∀ u ∈ Um, lexPointLt p1 u ∧ lexPointLt u pm)
    (hD1 : ∀ a b, Adj L a b → ∀ u ∈ Um, lexPointLt b u → Polygon.TOLERANCE < cross3 a b u)
    (hD3 : ∀ a b, Adj L a b → ∀ u ∈ Um, lexPointLt a u → lexPointLt u b →
      cross3 a u b ≤ Polygon.TOLERANCE)
    (hD2 : ∀ u u', u ∈ Um → u' ∈ Um → lexPointLt u u' →
      (∀ w ∈ Um, ¬(lexPointLt u w ∧ lexPointLt w u')) →
      ∀ a ∈ L, lexPointLt a u → cross3 a u u' ≤ Polygon.TOLERANCE)
    (S : List Point2D) (hSsort : S.Pairwise lexPointLt) (hperm : S.Perm (L ++ Um)) :
    chainFold S = L := by
  obtain ⟨L0, hL0⟩ : ∃ L0, L = p1 :: L0 := by
    cases L with
    | nil => exact absurd hLhead (by simp)
    | cons a t =>
        injection hLhead with h
        exact ⟨t, by rw [h]⟩
  obtain ⟨s0, S', rfl⟩ : ∃ s0 S', S = s0 :: S' := by
    cases S with
    | nil =>
        exfalso
        have : p1 ∈ ([] : List Point2D) := hperm.mem_iff.mpr (by simp [hL0])
        exact absurd this (List.not_mem_nil p1)
    | cons a t => exact ⟨a, t, rfl⟩
  have hs0 : p1 = s0 := by
    have hp1S : p1 ∈ s0 :: S' := hperm.mem_iff.mpr (by simp [hL0])
    rcases List.mem_cons.mp hp1S with h | h
    · exact h
    · exfalso
      have h1 : lexPointLt s0 p1 := (List.pairwise_cons.mp hSsort).1 p1 h
      have hs0LU : s0 ∈ L ++ Um := hperm.mem_iff.mp (by simp)
      have h2 : lexPointLe p1 s0 := by
        rcases List.mem_append.mp hs0LU with h' | h'
        · rw [hL0] at h'
          rcases List.mem_cons.mp h' with rfl | h''
          · exact Or.inr ⟨rfl, le_refl _⟩
          · exact lexPointLt_le ((List.pairwise_cons.mp (hL0 ▸ hLsort)).1 s0 h'')
        · exact lexPointLt_le (hrange s0 h').1
      exact lexPointLt_le_asymm h1 h2
  subst hs0
  have hstep := rerun_go L Um p1 pm hLlast hLtri hLsort (fun u hu => (hrange u hu).2)
    hD1 hD3 hD2 S' [p1] L0 Um [p1]
    (by rw [hL0]; rfl) (by simp)
    ((by simpa [hL0] using hperm : (p1 :: S').Perm (p1 :: (L0 ++ Um))).cons_inv)
    (fun u hu => hu)
    (List.pairwise_cons.mp hSsort).2
    (by
      intro y hy
      simpa using (List.pairwise_cons.mp hSsort).1 y hy)
    (by
      intro w hw hlt
      have hwS : w ∈ p1 :: S' := hperm.mem_iff.mpr (List.mem_append_right L hw)
      rcases List.mem_cons.mp hwS with rfl | h
      · exact absurd (by simpa using hlt) (lexPointLt_irrefl w)
      · exact h)
    (Or.inl (by simp))
  rw [chainFold_eq_reverse, chainStack, List.foldl_cons]
  rw [show popChain p1 [] = [] from rfl]
  rw [hstep, List.reverse_reverse]

end PlanarGeometry

namespace PlanarGeometry

/- ### C6 chunk 9: discharging the rerun hypotheses from chord separation and
from the shield of the opposite chain -/

theorem lexPointLe_antisymm {p q : Point2D} (h1 : lexPointLe p q) (h2 : lexPointLe q p) :
    p = q := by
  rcases h1 with h1 | ⟨h1, h1'⟩ <;> rcases h2 with h2 | ⟨h2, h2'⟩
  · linarith
  · linarith
  · linarith
  · cases p; cases q
    simp_all
    linarith

theorem negP_injective {a b : Point2D} (h : negP a = negP b) : a = b := by
  rw [← negP_involutive a, h, negP_involutive]

theorem list_shape {l : List Point2D} {a b : Point2D}
    (hh : l.head? = some a) (hl : l.getLast? = some b) (hne : a ≠ b) :
    ∃ mid, l = a :: mid ++ [b] := by
  cases l with
  | nil => exact absurd hh (by simp)
  | cons x t =>
      injection hh with hx
      subst hx
      cases t with
      | nil =>
          exfalso
          simp at hl
          exact hne hl
      | cons y t' =>
          have htne : (y :: t') ≠ [] := by simp
          have hgl : (y :: t').getLast? = some b := by
            rwa [List.getLast?_cons_cons] at hl
          refine ⟨(y :: t').dropLast, ?_⟩
          have h1 : (y :: t').dropLast ++ [b] = y :: t' :=
            List.dropLast_append_getLast? b (by rw [hgl]; exact rfl)
          rw [List.cons_append, h1]

theorem shape_rels {C : List Point2D} {q1 qm : Point2D} {mid : List Point2D}
    (hshape : C = q1 :: mid ++ [qm]) (hpw : C.Pairwise lexPointLt) :
    ∀ m ∈ mid, lexPointLt q1 m ∧ lexPointLt m qm := by
  intro m hm
  rw [hshape] at hpw
  obtain ⟨hhead, htail⟩ := List.pairwise_cons.mp hpw
  refine ⟨hhead m (by simp [hm]), ?_⟩
  exact (List.pairwise_append.mp htail).2.2 m hm qm (by simp)

theorem chain_endpoints_x {C : List Point2D} {q1 qm : Point2D} {mid : List Point2D}
    (hshape : C = q1 :: mid ++ [qm])
    (htri : ∀ o a b, Triple3 C o a b → Polygon.TOLERANCE < cross3 o a b)
    (hpw : C.Pairwise lexPointLe) (hmid : mid ≠ []) : q1.x < qm.x := by
  obtain ⟨m0, mid', rfl⟩ : ∃ m0 mid', mid = m0 :: mid' := by
    cases mid with
    | nil => exact absurd rfl hmid
    | cons a t => exact ⟨a, t, rfl⟩
  have h1 : q1.x < m0.x := by
    cases mid' with
    | nil =>
        exact triple_strictx htri hpw (by rw [hshape]; exact triple3_head q1 m0 qm [])
    | cons m1 mid'' =>
        exact triple_strictx htri hpw
          (by rw [hshape]; exact triple3_head q1 m0 m1 (mid'' ++ [qm]))
  have h2 : lexPointLe m0 qm := by
    rw [hshape] at hpw
    exact (List.pairwise_append.mp (List.pairwise_cons.mp hpw).2).2.2 m0 (by simp) qm (by simp)
  exact lt_of_lt_of_le h1 (lexPointLe_x_le h2)

theorem hD3_of_chord {C : List Point2D} {q1 qm : Point2D} {M : List Point2D}
    (hx : q1.x < qm.x)
    (hCchord : ∀ l ∈ C, cross3 q1 qm l ≤ 0)
    (hMchord : ∀ u ∈ M, 0 < cross3 q1 qm u) :
    ∀ a b, Adj C a b → ∀ u ∈ M, lexPointLt a u → lexPointLt u b →
      cross3 a u b ≤ Polygon.TOLERANCE := by
  intro a b hadj u hu hau hub
  have ha : a ∈ C := hadj.mem_left
  have hb : b ∈ C := hadj.mem_right
  have hax : a.x ≤ u.x := lexPointLt_x_le hau
  have hux : u.x ≤ b.x := lexPointLt_x_le hub
  rcases eq_or_lt_of_le hux with hxe | hxlt
  · exfalso
    have h1 : b.y < u.y := cross3_tie_above hx hxe (hMchord u hu) (hCchord b hb)
    have h2 : u.y < b.y := by
      rcases hub with h' | ⟨_, h'⟩
      · exact absurd h' (by rw [hxe]; exact lt_irrefl _)
      · exact h'
    linarith
  · rcases eq_or_lt_of_le hax with hxe | hxlt2
    · have hay : a.y ≤ u.y := by
        rcases hau with h' | ⟨_, h'⟩
        · exact absurd h' (by rw [← hxe]; exact lt_irrefl _)
        · exact le_of_lt h'
      have := cross3_vert_nonpos hxe hay (le_of_lt hxlt)
      linarith [tol_pos]
    · have h1 : 0 < cross3 a b u :=
        cross3_above_edge hx hxlt2 hxlt (hMchord u hu) (hCchord a ha) (hCchord b hb)
      rw [cross3_swap]
      linarith [tol_pos]

theorem hD2_of_shield {C : List Point2D} {q1 qm : Point2D} {Cmid S' : List Point2D}
    (hshape : C = q1 :: Cmid ++ [qm])
    (hCsort : C.Pairwise lexPointLt)
    (hshieldC : ∀ x y, Adj C x y → ∀ v ∈ S', lexPointLt y v →
      Polygon.TOLERANCE < cross3 x y v) :
    ∀ u u', u ∈ Cmid.map negP → u' ∈ Cmid.map negP → lexPointLt u u' →
      (∀ w ∈ Cmid.map negP, ¬(lexPointLt u w ∧ lexPointLt w u')) →
      ∀ a, negP a ∈ S' → lexPointLt a u → cross3 a u u' ≤ Polygon.TOLERANCE := by
  intro u u' hu hu' hlt hnob a haS hau
  have huC : negP u ∈ Cmid := by
    obtain ⟨c, hc, hcu⟩ := List.mem_map.mp hu
    rw [← hcu, negP_involutive]
    exact hc
  have hu'C : negP u' ∈ Cmid := by
    obtain ⟨c, hc, hcu⟩ := List.mem_map.mp hu'
    rw [← hcu, negP_involutive]
    exact hc
  have hadj : Adj C (negP u') (negP u) := by
    refine sorted_adjacent C hCsort (negP u') (negP u)
      (by rw [hshape]; simp [hu'C]) (by rw [hshape]; simp [huC])
      (lexPointLt_negP.mpr hlt) ?_
    intro z hz ⟨h1, h2⟩
    rw [hshape] at hz
    rcases List.mem_cons.mp hz with rfl | hz'
    · -- z = q1, the head: everything in Cmid is above it
      have : lexPointLt z (negP u') := by
        have := shape_rels hshape hCsort (negP u') hu'C
        exact this.1
      exact lexPointLt_asymm h1 this
    · rcases List.mem_append.mp hz' with hz'' | hz''
      · -- z is a middle point: contradicts the no-between hypothesis
        have hzM : negP z ∈ Cmid.map negP := List.mem_map.mpr ⟨z, hz'', rfl⟩
        refine hnob (negP z) hzM ⟨?_, ?_⟩
        · have := lexPointLt_negP.mpr h2
          rwa [negP_involutive] at this
        · have := lexPointLt_negP.mpr h1
          rwa [negP_involutive] at this
      · -- z = qm, the last: everything in Cmid is below it
        rw [List.mem_singleton.mp hz''] at h2
        have : lexPointLt (negP u) qm := (shape_rels hshape hCsort (negP u) huC).2
        exact lexPointLt_asymm h2 this
  have hlex : lexPointLt (negP u) (negP a) := by
    rw [lexPointLt_negP]
    exact hau
  have hsh := hshieldC (negP u') (negP u) hadj (negP a) haS hlex
  rw [cross3_negP] at hsh
  have he : cross3 a u u' = -cross3 u' u a := by
    rw [cross3_cyclic a u u', cross3_swap01 u u' a]
  rw [he]
  linarith [tol_pos]

end PlanarGeometry

namespace PlanarGeometry

set_option maxHeartbeats 1000000 in
theorem hull_rerun (S : List Point2D) (hSle : S.Pairwise lexPointLe)
    (hlen3 : 3 ≤ ((chainFold S).dropLast ++ (chainFold S.reverse).dropLast).length) :
    chainFold (sortBy lexPointLt
        ((chainFold S).dropLast ++ (chainFold S.reverse).dropLast)) = chainFold S ∧
    chainFold (sortBy lexPointLt
        ((chainFold S).dropLast ++ (chainFold S.reverse).dropLast)).reverse
      = chainFold S.reverse := by
  -- the reflected input that computes the upper chain as a lower chain
  have hrevle : (S.reverse).Pairwise (fun a b => lexPointLe b a) :=
    List.pairwise_reverse.mpr (by simpa [flip] using hSle)
  have hSnegle : ((S.reverse).map negP).Pairwise lexPointLe := by
    rw [List.pairwise_map]
    exact hrevle.imp (fun h => lexPointLe_negP.mpr h)
  -- endpoints of the sorted input
  obtain ⟨p1, S1, hScons⟩ : ∃ p1 S1, S = p1 :: S1 := by
    cases S with
    | nil => exfalso; simp [chainFold, chainStack] at hlen3
    | cons a t => exact ⟨a, t, rfl⟩
  have hp1 : S.head? = some p1 := by rw [hScons]; rfl
  obtain ⟨pm, hpm⟩ : ∃ pm, S.getLast? = some pm := by
    rw [hScons]
    exact ⟨(p1 :: S1).getLast (by simp), List.getLast?_eq_getLast _ _⟩
  have hpmS : pm ∈ S.getLast? := by rw [hpm]; exact rfl
  obtain ⟨S0, hS0⟩ : ∃ S0, S = S0 ++ [pm] :=
    ⟨S.dropLast, (List.dropLast_append_getLast? pm hpmS).symm⟩
  have hLhead : (chainFold S).head? = some p1 := by rw [cf_head hSle, hp1]
  have hLlast : (chainFold S).getLast? = some pm := by rw [cf_getLast hSle, hpm]
  have hSneghead : ((S.reverse).map negP).head? = some (negP pm) := by
    rw [List.head?_map, List.head?_reverse, hpm]; rfl
  have hSneglast : ((S.reverse).map negP).getLast? = some (negP p1) := by
    rw [List.getLast?_map, List.getLast?_reverse, hp1]; rfl
  have hUNhead : (chainFold ((S.reverse).map negP)).head? = some (negP pm) := by
    rw [cf_head hSnegle, hSneghead]
  have hUNlast : (chainFold ((S.reverse).map negP)).getLast? = some (negP p1) := by
    rw [cf_getLast hSnegle, hSneglast]
  have hUUN : chainFold S.reverse = (chainFold ((S.reverse).map negP)).map negP := by
    rw [chainFold_negP, map_negP_involutive]
  -- the two endpoints differ, because the hull list has at least three entries
  have hSlen2 : 2 ≤ S.length → True := fun _ => trivial
  have hne : p1 ≠ pm := by
    intro he
    have hall : ∀ x ∈ S, x = p1 := by
      intro x hx
      have h1 : lexPointLe p1 x := by
        rw [hScons] at hx
        rcases List.mem_cons.mp hx with rfl | hx'
        · exact Or.inr ⟨rfl, le_refl _⟩
        · exact (List.pairwise_cons.mp (hScons ▸ hSle)).1 x hx'
      have h2 : lexPointLe x pm := by
        rw [hS0] at hx
        rcases List.mem_append.mp hx with hx' | hx'
        · exact (List.pairwise_append.mp (hS0 ▸ hSle)).2.2 x hx' pm (by simp)
        · rw [List.mem_singleton.mp hx']
          exact Or.inr ⟨rfl, le_refl _⟩
      rw [← he] at h2
      exact (lexPointLe_antisymm h1 h2).symm
    have hcol : ∀ a ∈ S, ∀ b ∈ S, ∀ c ∈ S, cross3 a b c = 0 := by
      intro a ha b hb c hc
      rw [hall a ha, hall b hb, hall c hc]
      exact cross3_self_left p1 p1
    cases S1 with
    | nil =>
        rw [hScons] at hlen3
        simp [chainFold, chainStack, popChain] at hlen3
    | cons s1 S2 =>
        have hlenS : 2 ≤ S.length := by rw [hScons]; simp
        have hL2 : (chainFold S).length = 2 :=
          chainFold_length_two_of_collinear hcol S (fun x hx => hx) hlenS
        have hU2 : (chainFold S.reverse).length = 2 :=
          chainFold_length_two_of_collinear (S := S) hcol S.reverse
            (fun x hx => List.mem_reverse.mp hx) (by rw [List.length_reverse]; exact hlenS)
        rw [List.length_append, List.length_dropLast, List.length_dropLast, hL2, hU2] at hlen3
        omega
  -- strictness of both chains
  have hLstrict : (chainFold S).Pairwise lexPointLt := by
    refine cf_strict hSle ?_
    intro q hq
    have h1 : (chainFold S).head? = some q := by rw [hq]; rfl
    have h2 : (chainFold S).getLast? = some q := by rw [hq]; rfl
    rw [hLhead] at h1
    rw [hLlast] at h2
    exact hne ((Option.some_inj.mp h1).trans (Option.some_inj.mp h2).symm)
  have hUNstrict : (chainFold ((S.reverse).map negP)).Pairwise lexPointLt := by
    refine cf_strict hSnegle ?_
    intro q hq
    have h1 : (chainFold ((S.reverse).map negP)).head? = some q := by rw [hq]; rfl
    have h2 : (chainFold ((S.reverse).map negP)).getLast? = some q := by rw [hq]; rfl
    rw [hUNhead] at h1
    rw [hUNlast] at h2
    refine hne (negP_injective ?_).symm
    exact (Option.some_inj.mp h1).trans (Option.some_inj.mp h2).symm
  -- chain shapes
  obtain ⟨Lmid, hLshape⟩ := list_shape hLhead hLlast hne
  obtain ⟨UNmid, hUNshape⟩ :=
    list_shape hUNhead hUNlast (fun hc => hne (negP_injective hc).symm)
  -- chord separation
  have htriL := cf_tri hSle
  have htriUN := cf_tri hSnegle
  have hLmid_chord : ∀ q ∈ Lmid, cross3 p1 pm q < 0 :=
    chord_side Lmid p1 pm (fun o a b hT => htriL o a b (by rw [hLshape]; exact hT))
      (by rw [← hLshape]; exact cf_sorted hSle)
  have hUNmid_chord : ∀ q ∈ UNmid, cross3 (negP pm) (negP p1) q < 0 :=
    chord_side UNmid (negP pm) (negP p1)
      (fun o a b hT => htriUN o a b (by rw [hUNshape]; exact hT))
      (by rw [← hUNshape]; exact cf_sorted hSnegle)
  have hLchord_all : ∀ z ∈ chainFold S, cross3 p1 pm z ≤ 0 := by
    intro z hz
    rw [hLshape] at hz
    rcases List.mem_append.mp hz with hz' | hz'
    · rcases List.mem_cons.mp hz' with hz0 | hz''
      · rw [hz0]
        exact le_of_eq (cross3_self_outer _ _)
      · exact le_of_lt (hLmid_chord z hz'')
    · rw [List.mem_singleton.mp hz']
      exact le_of_eq (cross3_self_right p1 pm)
  have hUNchord_all : ∀ z ∈ chainFold ((S.reverse).map negP),
      cross3 (negP pm) (negP p1) z ≤ 0 := by
    intro z hz
    rw [hUNshape] at hz
    rcases List.mem_append.mp hz with hz' | hz'
    · rcases List.mem_cons.mp hz' with hz0 | hz''
      · rw [hz0]
        exact le_of_eq (cross3_self_outer _ _)
      · exact le_of_lt (hUNmid_chord z hz'')
    · rw [List.mem_singleton.mp hz']
      exact le_of_eq (cross3_self_right (negP pm) (negP p1))
  -- the hull list is exactly the lower chain followed by the upper middle points
  have hLdrop : (chainFold S).dropLast = p1 :: Lmid := by
    rw [hLshape]
    exact List.dropLast_concat
  have hUdrop : (chainFold S.reverse).dropLast = pm :: UNmid.map negP := by
    rw [hUUN, hUNshape]
    have h1 : List.map negP ((negP pm :: UNmid) ++ [negP p1])
        = (pm :: UNmid.map negP) ++ [p1] := by
      simp [negP_involutive]
    rw [h1, List.dropLast_concat]
  have hhl : (chainFold S).dropLast ++ (chainFold S.reverse).dropLast
      = chainFold S ++ UNmid.map negP := by
    rw [hLdrop, hUdrop, hLshape]
    simp
  -- membership transfers
  have hUmS : ∀ u ∈ UNmid.map negP, u ∈ S := by
    intro u hu
    obtain ⟨c, hc, rfl⟩ := List.mem_map.mp hu
    have hcUN : c ∈ chainFold ((S.reverse).map negP) := by
      rw [hUNshape]; simp [hc]
    obtain ⟨s, hs, rfl⟩ := List.mem_map.mp (cf_mem hSnegle c hcUN)
    rw [negP_involutive]
    exact List.mem_reverse.mp hs
  have hUm_chord_pos : ∀ u ∈ UNmid.map negP, 0 < cross3 p1 pm u := by
    intro u hu
    obtain ⟨c, hc, rfl⟩ := List.mem_map.mp hu
    have h2 := hUNmid_chord c hc
    rw [← negP_involutive c, cross3_negP] at h2
    rw [cross3_swap01] at h2
    linarith
  have hLmid_chord_neg : ∀ v ∈ Lmid.map negP, 0 < cross3 (negP pm) (negP p1) v := by
    intro v hv
    obtain ⟨l, hl, rfl⟩ := List.mem_map.mp hv
    have h2 := hLmid_chord l hl
    have h3 : cross3 (negP pm) (negP p1) (negP l) = cross3 pm p1 l := cross3_negP pm p1 l
    rw [h3, cross3_swap01]
    linarith
  -- p1.x < pm.x since some chain has a middle point
  have hp1pmx : p1.x < pm.x := by
    have hlen' : 1 ≤ Lmid.length + UNmid.length := by
      have e1 : (chainFold S).dropLast.length = Lmid.length + 1 := by rw [hLdrop]; simp
      have e2 : (chainFold S.reverse).dropLast.length = UNmid.length + 1 := by
        rw [hUdrop]; simp
      rw [List.length_append, e1, e2] at hlen3
      omega
    rcases List.eq_nil_or_concat Lmid with hmid | ⟨_, _, hmid⟩
    · have hUNne : UNmid ≠ [] := by
        intro h
        rw [hmid, h] at hlen'
        simp at hlen'
      have := chain_endpoints_x hUNshape htriUN (cf_sorted hSnegle) hUNne
      simp only [negP] at this
      linarith
    · have hLne : Lmid ≠ [] := by rw [hmid]; simp
      exact chain_endpoints_x hLshape htriL (cf_sorted hSle) hLne
  -- sortedness and distinctness of the rerun input
  have hS''le : (sortBy lexPointLt
      ((chainFold S).dropLast ++ (chainFold S.reverse).dropLast)).Pairwise lexPointLe := by
    refine pairwise_sortBy ?_ ?_ ?_ _
    · exact fun a b h => lexPointLt_le h
    · exact fun a b h => lexPoint_total h
    · exact fun a b c h1 h2 => lexPointLe_trans h1 h2
  have hperm'' : (sortBy lexPointLt
      ((chainFold S).dropLast ++ (chainFold S.reverse).dropLast)).Perm
      (chainFold S ++ UNmid.map negP) := by
    rw [← hhl]
    exact sortBy_perm lexPointLt _
  have hUmnodup : (UNmid.map negP).Nodup := by
    have h1 : UNmid.Nodup := by
      have h2 := nodup_of_pairwise_lt hUNstrict
      rw [hUNshape] at h2
      exact (List.nodup_cons.mp (List.nodup_append.mp h2).1).2
    exact h1.map (fun a b h => negP_injective h)
  have hhlnodup : (chainFold S ++ UNmid.map negP).Nodup := by
    rw [List.nodup_append]
    refine ⟨nodup_of_pairwise_lt hLstrict, hUmnodup, ?_⟩
    intro x hx hxU
    have h1 := hLchord_all x hx
    have h2 := hUm_chord_pos x hxU
    linarith
  have hS''strict : (sortBy lexPointLt
      ((chainFold S).dropLast ++ (chainFold S.reverse).dropLast)).Pairwise lexPointLt := by
    have hnd : (sortBy lexPointLt
        ((chainFold S).dropLast ++ (chainFold S.reverse).dropLast)).Nodup :=
      hperm''.nodup_iff.mpr hhlnodup
    exact hS''le.imp₂ (fun a b h1 h2 => lexPointLe_ne_lt h1 h2) hnd
  -- lexicographic range of the opposite-chain middles
  have hrangeL : ∀ u ∈ UNmid.map negP, lexPointLt p1 u ∧ lexPointLt u pm := by
    intro u hu
    obtain ⟨c, hc, rfl⟩ := List.mem_map.mp hu
    have hrel := shape_rels hUNshape hUNstrict c hc
    constructor
    · rw [← negP_involutive p1]
      exact lexPointLt_negP.mpr hrel.2
    · rw [← negP_involutive pm]
      exact lexPointLt_negP.mpr hrel.1
  have hrangeUN : ∀ v ∈ Lmid.map negP, lexPointLt (negP pm) v ∧ lexPointLt v (negP p1) := by
    intro v hv
    obtain ⟨l, hl, rfl⟩ := List.mem_map.mp hv
    have hrel := shape_rels hLshape hLstrict l hl
    exact ⟨lexPointLt_negP.mpr hrel.2, lexPointLt_negP.mpr hrel.1⟩
  -- the rerun hypotheses
  have hshieldL := cf_shield hSle
  have hshieldUN := cf_shield hSnegle
  have hD1L : ∀ a b, Adj (chainFold S) a b → ∀ u ∈ UNmid.map negP, lexPointLt b u →
      Polygon.TOLERANCE < cross3 a b u :=
    fun a b hadj u hu hlt => hshieldL a b hadj u (hUmS u hu) hlt
  have hD3L := hD3_of_chord hp1pmx hLchord_all hUm_chord_pos
  have hD2L : ∀ u u', u ∈ UNmid.map negP → u' ∈ UNmid.map negP → lexPointLt u u' →
      (∀ w ∈ UNmid.map negP, ¬(lexPointLt u w ∧ lexPointLt w u')) →
      ∀ a ∈ chainFold S, lexPointLt a u → cross3 a u u' ≤ Polygon.TOLERANCE := by
    intro u u' hu hu' hlt hnob a ha hlex
    refine hD2_of_shield hUNshape hUNstrict hshieldUN u u' hu hu' hlt hnob a ?_ hlex
    exact List.mem_map.mpr ⟨a, List.mem_reverse.mpr (cf_mem hSle a ha), rfl⟩
  have hrerun1 : chainFold (sortBy lexPointLt
      ((chainFold S).dropLast ++ (chainFold S.reverse).dropLast)) = chainFold S :=
    rerun_lower (chainFold S) (UNmid.map negP) p1 pm hLhead hLlast htriL hLstrict
      hrangeL hD1L hD3L hD2L _ hS''strict hperm''
  -- the mirrored rerun for the upper chain
  have hTsort : (((sortBy lexPointLt
      ((chainFold S).dropLast ++ (chainFold S.reverse).dropLast)).reverse).map
        negP).Pairwise lexPointLt := by
    rw [List.pairwise_map]
    refine List.pairwise_reverse.mpr ?_
    exact hS''strict.imp (fun h => lexPointLt_negP.mpr h)
  have hTperm : (((sortBy lexPointLt
      ((chainFold S).dropLast ++ (chainFold S.reverse).dropLast)).reverse).map negP).Perm
      (chainFold ((S.reverse).map negP) ++ Lmid.map negP) := by
    have h1 := ((List.reverse_perm (sortBy lexPointLt
      ((chainFold S).dropLast ++ (chainFold S.reverse).dropLast))).map negP).trans
      (hperm''.map negP)
    have h3 : (chainFold S ++ UNmid.map negP).map negP
        = (chainFold S).map negP ++ UNmid := by
      rw [List.map_append, map_negP_involutive]
    rw [h3] at h1
    refine h1.trans ?_
    rw [hLshape, hUNshape]
    simp only [List.map_append, List.map_cons, List.map_nil]
    have e1 : ((negP p1 :: Lmid.map negP) ++ [negP pm]) ++ UNmid
        = negP p1 :: (Lmid.map negP ++ negP pm :: UNmid) := by simp
    have e2 : ((negP pm :: UNmid) ++ [negP p1]) ++ Lmid.map negP
        = negP pm :: (UNmid ++ negP p1 :: Lmid.map negP) := by simp
    rw [e1, e2]
    have s1 : (negP p1 :: (Lmid.map negP ++ negP pm :: UNmid)).Perm
        (negP p1 :: negP pm :: (Lmid.map negP ++ UNmid)) :=
      List.Perm.cons (negP p1) List.perm_middle
    have s2 : (negP p1 :: negP pm :: (Lmid.map negP ++ UNmid)).Perm
        (negP pm :: negP p1 :: (UNmid ++ Lmid.map negP)) :=
      (List.Perm.swap (negP pm) (negP p1) _).trans
        (List.Perm.cons (negP pm) (List.Perm.cons (negP p1) List.perm_append_comm))
    have s3 : (negP p1 :: (UNmid ++ Lmid.map negP)).Perm
        (UNmid ++ negP p1 :: Lmid.map negP) := List.perm_middle.symm
    exact (s1.trans s2).trans (List.Perm.cons (negP pm) s3)
  have hD1UN : ∀ a b, Adj (chainFold ((S.reverse).map negP)) a b →
      ∀ v ∈ Lmid.map negP, lexPointLt b v →
      Polygon.TOLERANCE < cross3 a b v := by
    intro a b hadj v hv hlt
    refine hshieldUN a b hadj v ?_ hlt
    obtain ⟨l, hl, rfl⟩ := List.mem_map.mp hv
    refine List.mem_map.mpr ⟨l, List.mem_reverse.mpr ?_, rfl⟩
    refine cf_mem hSle l ?_
    rw [hLshape]
    simp [hl]
  have hxUN : (negP pm).x < (negP p1).x := by
    simp only [negP]
    linarith
  have hD3UN := hD3_of_chord hxUN hUNchord_all hLmid_chord_neg
  have hD2UN : ∀ u u', u ∈ Lmid.map negP → u' ∈ Lmid.map negP → lexPointLt u u' →
      (∀ w ∈ Lmid.map negP, ¬(lexPointLt u w ∧ lexPointLt w u')) →
      ∀ a ∈ chainFold ((S.reverse).map negP), lexPointLt a u →
        cross3 a u u' ≤ Polygon.TOLERANCE := by
    intro u u' hu hu' hlt hnob a ha hlex
    refine hD2_of_shield hLshape hLstrict hshieldL u u' hu hu' hlt hnob a ?_ hlex
    obtain ⟨s, hs, rfl⟩ := List.mem_map.mp (cf_mem hSnegle a ha)
    rw [negP_involutive]
    exact List.mem_reverse.mp hs
  have hrerun2 : chainFold (((sortBy lexPointLt
      ((chainFold S).dropLast ++ (chainFold S.reverse).dropLast)).reverse).map negP)
      = chainFold ((S.reverse).map negP) :=
    rerun_lower (chainFold ((S.reverse).map negP)) (Lmid.map negP) (negP pm) (negP p1)
      hUNhead hUNlast htriUN hUNstrict hrangeUN hD1UN hD3UN hD2UN _ hTsort hTperm
  refine ⟨hrerun1, ?_⟩
  have h1 : (chainFold ((sortBy lexPointLt
      ((chainFold S).dropLast ++ (chainFold S.reverse).dropLast)).reverse)).map negP
      = chainFold ((S.reverse).map negP) := by
    rw [← chainFold_negP]
    exact hrerun2
  have h2 := congrArg (List.map negP) h1
  rw [map_negP_involutive] at h2
  rw [h2, ← hUUN]

end PlanarGeometry

namespace PlanarGeometry

/-- C6: convex-hull construction is idempotent. If get_convex_hull on a polygon
succeeds with hull h, then get_convex_hull on h succeeds and returns h itself —
the very same vertex list, hence the same set of vertices (a fortiori up to
rotation/reflection). -/
theorem C6_convex_hull_idempotent (poly h : Polygon)
    (hok : poly.get_convex_hull = Except.ok h) :
    h.get_convex_hull = Except.ok h := by
  rw [Polygon.get_convex_hull] at hok
  by_cases hle : (sortBy lexPointLt poly.vertices).length ≤ 2
  · rw [if_pos hle] at hok
    rw [polygonMk, if_pos (by omega)] at hok
    exact absurd hok (by simp)
  · rw [if_neg hle] at hok
    rw [polygonMk] at hok
    by_cases hsh : ((chainFold (sortBy lexPointLt poly.vertices)).dropLast ++
        (chainFold (sortBy lexPointLt poly.vertices).reverse).dropLast).length < 3
    · rw [if_pos hsh] at hok
      exact absurd hok (by simp)
    · rw [if_neg hsh] at hok
      have hv : h.vertices = (chainFold (sortBy lexPointLt poly.vertices)).dropLast ++
          (chainFold (sortBy lexPointLt poly.vertices).reverse).dropLast := by
        rw [← Except.ok.inj hok]
      have hSle : (sortBy lexPointLt poly.vertices).Pairwise lexPointLe := by
        refine pairwise_sortBy ?_ ?_ ?_ _
        · exact fun a b h => lexPointLt_le h
        · exact fun a b h => lexPoint_total h
        · exact fun a b c h1 h2 => lexPointLe_trans h1 h2
      have hlen3 : 3 ≤ ((chainFold (sortBy lexPointLt poly.vertices)).dropLast ++
          (chainFold (sortBy lexPointLt poly.vertices).reverse).dropLast).length :=
        not_lt.mp hsh
      obtain ⟨hr1, hr2⟩ := hull_rerun (sortBy lexPointLt poly.vertices) hSle hlen3
      rw [Polygon.get_convex_hull, hv]
      have hslen : (sortBy lexPointLt
          ((chainFold (sortBy lexPointLt poly.vertices)).dropLast ++
           (chainFold (sortBy lexPointLt poly.vertices).reverse).dropLast)).length =
          ((chainFold (sortBy lexPointLt poly.vertices)).dropLast ++
           (chainFold (sortBy lexPointLt poly.vertices).reverse).dropLast).length :=
        (sortBy_perm lexPointLt _).length_eq
      rw [if_neg (by rw [hslen]; omega)]
      rw [hr1, hr2]
      rw [polygonMk, if_neg hsh]
      rw [← hv]

theorem triangle_hull_eval :
    Polygon.get_convex_hull ⟨[⟨0, 0⟩, ⟨1, 0⟩, ⟨0, 1⟩]⟩
      = Except.ok (⟨[⟨0, 0⟩, ⟨1, 0⟩, ⟨0, 1⟩]⟩ : Polygon) := by
  norm_num [Polygon.get_convex_hull, sortBy, insertBy, lexPointLt, chainFold,
    popChain, cross3, Polygon.TOLERANCE, polygonMk]

/-- Witness for C6: the triangle (0,0), (1,0), (0,1) is a successful hull
output, and rerunning get_convex_hull on it returns it unchanged. -/
theorem C6_convex_hull_idempotent_witness :
    Polygon.get_convex_hull ⟨[⟨0, 0⟩, ⟨1, 0⟩, ⟨0, 1⟩]⟩
      = Except.ok (⟨[⟨0, 0⟩, ⟨1, 0⟩, ⟨0, 1⟩]⟩ : Polygon) ∧
    Polygon.get_convex_hull (⟨[⟨0, 0⟩, ⟨1, 0⟩, ⟨0, 1⟩]⟩ : Polygon)
      = Except.ok (⟨[⟨0, 0⟩, ⟨1, 0⟩, ⟨0, 1⟩]⟩ : Polygon) :=
  ⟨triangle_hull_eval, C6_convex_hull_idempotent _ _ triangle_hull_eval⟩

end PlanarGeometry
